import Mathlib

/-!
# Verification of the grappolo clustering core

Shallow embedding of `src/sim_matrix.rs` and `src/cluster.rs`.

Modelling decisions:
* `Similarity` (Rust `f64`) is embedded as `ℚ`.  The source only compares,
  adds and deduplicates similarity values; all inputs of interest lie in
  `[0, 1]`, where Rust's decimal formatting (used for deduplication and for
  the ascending sort of `similarity_values`) agrees with the numeric order,
  so value-level deduplication and sorting is the faithful model.
* Rust's stable `sort_by(cmp)` is modelled by Mathlib's stable
  `List.insertionSort r` with `r a b := cmp a b ≠ Greater`.
* The `HashMap` built in `spin_off` maps an old index to the position of its
  *last* occurrence in the index list (later inserts overwrite earlier ones);
  `mapTo` reproduces that.
* `assert!`-style panics are modelled by `Option`, and the unbounded
  recursion of `collect_clusters` by an explicit `fuel` parameter that only
  decreases when the Rust code makes a recursive call.
-/

namespace Grappolo

/-- Rust `type Index = usize`. -/
abbrev Index := ℕ

/-- Rust `type Size = usize`. -/
abbrev Size := ℕ

/-- Rust `type Similarity = f64`, embedded as `ℚ`. -/
abbrev Similarity := ℚ

/-- One cell of a row: a sibling element's index and its similarity
(`Score` in `sim_matrix.rs`). -/
structure Score where
  sibling_index : Index
  similarity : Similarity
deriving DecidableEq, Repr

/-- A sparse row of qualifying sibling scores (`Row` in `sim_matrix.rs`). -/
structure Row where
  scores : List Score
deriving DecidableEq, Repr

/-- The sparse symmetric similarity matrix (`SimilarityMatrix` in
`sim_matrix.rs`). -/
structure SimilarityMatrix where
  rows : List Row
  min_similarity : Similarity
  similarity_values : List Similarity
deriving DecidableEq, Repr

/-- Comparator used to sort each row descending by similarity:
`similarity_2.partial_cmp(&similarity_1)` yields `Less`/`Equal` exactly when
`b.similarity ≤ a.similarity`. -/
def scoreDescRel (a b : Score) : Prop := b.similarity ≤ a.similarity

instance : DecidableRel scoreDescRel := fun a b =>
  inferInstanceAs (Decidable (b.similarity ≤ a.similarity))

/-- Ascending order on similarity values (`itertools::sorted` over the
decimal renderings, which coincides with numeric order on `[0,1]`). -/
def simAscRel (a b : Similarity) : Prop := a ≤ b

instance : DecidableRel simAscRel := fun a b =>
  inferInstanceAs (Decidable (a ≤ b))

/-- The comparator of `rank_by_weight`, as the relation
`cmp a b ≠ Greater`: `a` precedes `b` when `a` has strictly more siblings,
or equally many and a strictly larger similarity sum.  On exact ties the
Rust comparator returns `Greater` both ways; correspondingly this relation
does not hold in either direction. -/
def rankRel (a b : Index × Size × Similarity) : Prop :=
  b.2.1 < a.2.1 ∨ (a.2.1 = b.2.1 ∧ b.2.2 < a.2.2)

instance : DecidableRel rankRel := fun a b =>
  inferInstanceAs (Decidable (b.2.1 < a.2.1 ∨ (a.2.1 = b.2.1 ∧ b.2.2 < a.2.2)))

/-- Row lookup (`impl Index<Index> for Row`): the first score for the
sibling, or `0.0` when absent. -/
def Row.lookup (r : Row) (index : Index) : Similarity :=
  match r.scores.find? (fun score => score.sibling_index == index) with
  | some score => score.similarity
  | none => 0

/-- `Row::cut_at`: siblings whose similarity reaches the given floor. -/
def Row.cut_at (r : Row) (similarity : Similarity) : List Index :=
  ((r.scores.filter (fun score => similarity ≤ score.similarity)).map
    (fun score => score.sibling_index))

/-- `Row::ranked_siblings`: drop excluded siblings, stable-sort the rest
descending by similarity, return the sibling indices. -/
def Row.ranked_siblings (r : Row) (excluding : Finset Index) : List Index :=
  ((List.insertionSort scoreDescRel
      (r.scores.filter (fun score => score.sibling_index ∉ excluding))).map
    (fun score => score.sibling_index))

/-- Row access `matrix[i]` (`impl Index<Index> for SimilarityMatrix`). -/
def SimilarityMatrix.row (m : SimilarityMatrix) (index : Index) : Row :=
  m.rows.getD index ⟨[]⟩

/-- `SimilarityMatrix::size`. -/
def SimilarityMatrix.size (m : SimilarityMatrix) : Size :=
  m.rows.length

/-- Push one score onto row `i` (the `rows[row_index].scores.push(...)`
statements in `SimilarityMatrix::new`). -/
def pushScore (rows : List Row) (i : Index) (score : Score) : List Row :=
  rows.set i ⟨(rows.getD i ⟨[]⟩).scores ++ [score]⟩

/-- One iteration of the merge loop of `SimilarityMatrix::new`:
`rows[row_index].scores.push(Score{column_index, similarity})` followed by
`rows[column_index].scores.push(Score{row_index, similarity})`. -/
def mergeStep (rows : List Row) (t : Index × Index × Similarity) : List Row :=
  pushScore (pushScore rows t.1 ⟨t.2.1, t.2.2⟩) t.2.1 ⟨t.1, t.2.2⟩

/-- The retained `(row, column, similarity)` triplets of
`SimilarityMatrix::new`: evaluate the metric once per supplied pair and keep
the result when `similarity > 0.0 && similarity >= min_similarity`. -/
def similarityTriplets [Inhabited α] (elements : List α)
    (min_similarity : Similarity) (pairs : List (Index × Index))
    (metric : α → α → Similarity) : List (Index × Index × Similarity) :=
  ((pairs.map (fun p =>
      (p.1, p.2, metric (elements.getD p.1 default) (elements.getD p.2 default)))).filter
    (fun t => decide (0 < t.2.2) && decide (min_similarity ≤ t.2.2)))

/-- Deduplicate similarity values and sort them ascending (the
`HashSet<String>` plus `itertools::sorted` idiom of the source, modelled at
the value level). -/
def dedupSorted (sims : List Similarity) : List Similarity :=
  List.insertionSort simAscRel sims.dedup

/-- The body of `SimilarityMatrix::new` after the emptiness assertion:
build empty rows, merge every retained triplet symmetrically, sort each row
descending by similarity, and record the distinct similarity values
ascending. -/
def SimilarityMatrix.build [Inhabited α] (elements : List α)
    (min_similarity : Similarity) (pairs : List (Index × Index))
    (metric : α → α → Similarity) : SimilarityMatrix :=
  let size := elements.length
  let rows0 : List Row := List.replicate size ⟨[]⟩
  let triplets := similarityTriplets elements min_similarity pairs metric
  let rows1 := triplets.foldl mergeStep rows0
  let rows2 := rows1.map (fun r => ⟨List.insertionSort scoreDescRel r.scores⟩)
  { rows := rows2
    min_similarity := min_similarity
    similarity_values := dedupSorted (triplets.map (fun t => t.2.2)) }

/-- `SimilarityMatrix::new`.  The source asserts `size > 0` before any other
work; the panic is modelled as `none`, so a failed construction yields no
matrix at all. -/
def SimilarityMatrix.new [Inhabited α] (elements : List α)
    (min_similarity : Similarity) (pairs : List (Index × Index))
    (metric : α → α → Similarity) : Option SimilarityMatrix :=
  if elements.length = 0 then none
  else some (SimilarityMatrix.build elements min_similarity pairs metric)

/-- Position a given old index is remapped to by the `HashMap` of
`spin_off`: the position of its *last* occurrence in `indices` (later
`HashMap` inserts overwrite earlier ones), `0` when absent (the source
`unwrap`s, absence being unreachable there). -/
def mapTo : List Index → Index → Index
  | [], _ => 0
  | a :: l, x => if x ∈ l then mapTo l x + 1 else if a = x then 0 else 0

/-- `SimilarityMatrix::spin_off`: project onto a subset of indices,
re-indexed in the given order, keeping an edge only when the sibling is in
the subset and its similarity reaches the new floor; recompute
`similarity_values` from the retained edges. -/
def SimilarityMatrix.spin_off (m : SimilarityMatrix) (indices : List Index)
    (min_similarity : Similarity) : SimilarityMatrix :=
  let rows := indices.map (fun previous_index =>
    let row := m.row previous_index
    Row.mk ((row.scores.filter (fun score =>
        decide (score.sibling_index ∈ indices) &&
          decide (min_similarity ≤ score.similarity))).map
      (fun score => Score.mk (mapTo indices score.sibling_index) score.similarity)))
  { rows := rows
    min_similarity := min_similarity
    similarity_values :=
      dedupSorted (rows.flatMap (fun row => row.scores.map (fun score => score.similarity))) }

/-- `SimilarityMatrix::rank_by_weight`: pair every index with its sibling
count and similarity sum, stable-sort by the (inconsistent-on-ties)
comparator, and return the indices. -/
def SimilarityMatrix.rank_by_weight (m : SimilarityMatrix) : List Index :=
  ((List.insertionSort rankRel
    ((List.range m.rows.length).map (fun index =>
      (index, (m.rows.getD index ⟨[]⟩).scores.length,
        ((m.rows.getD index ⟨[]⟩).scores.map (fun score => score.similarity)).sum)))).map
    (fun t => t.1))

/-- A cluster is an ordered list of indices (`type Cluster = Vec<Index>`). -/
abbrev Cluster := List Index

/-- `ClusteringResult` from `cluster.rs`. -/
structure ClusteringResult where
  clusters : List Cluster
  similarity_matrix : SimilarityMatrix

/-- The clusterer state from `cluster.rs`. -/
structure Clusterer where
  clusters_so_far : List Cluster
  visited_so_far : Finset Index
  current_cluster : List Index
deriving DecidableEq

/-- `Clusterer::new`. -/
def Clusterer.new : Clusterer := ⟨[], ∅, []⟩

/-- `Clusterer::can_add`: the index was not visited yet. -/
def Clusterer.can_add (cl : Clusterer) (index : Index) : Prop :=
  index ∉ cl.visited_so_far

instance (cl : Clusterer) (index : Index) : Decidable (cl.can_add index) :=
  inferInstanceAs (Decidable (index ∉ cl.visited_so_far))

/-- `Clusterer::add_to_cluster`: push onto the current cluster and mark
visited. -/
def Clusterer.add_to_cluster (cl : Clusterer) (index : Index) : Clusterer :=
  { cl with
    current_cluster := cl.current_cluster ++ [index]
    visited_so_far := insert index cl.visited_so_far }

/-- `Clusterer::new_cluster`: reset the current cluster and seed it. -/
def Clusterer.new_cluster (cl : Clusterer) (index : Index) : Clusterer :=
  Clusterer.add_to_cluster { cl with current_cluster := [] } index

/-- `Clusterer::current_cluster_len`. -/
def Clusterer.current_cluster_len (cl : Clusterer) : Size :=
  cl.current_cluster.length

/-- `Clusterer::commit_current_cluster`. -/
def Clusterer.commit_current_cluster (cl : Clusterer) : Clusterer :=
  { cl with
    clusters_so_far := cl.clusters_so_far ++ [cl.current_cluster]
    current_cluster := [] }

/-- `Clusterer::to_be_excluded`. -/
def Clusterer.to_be_excluded (cl : Clusterer) : Finset Index :=
  cl.visited_so_far

/-- `Clusterer::commit_inner_clusters`: remap every sub-cluster through the
current cluster and commit it. -/
def Clusterer.commit_inner_clusters (cl : Clusterer)
    (sub_clusters : List Cluster) : Clusterer :=
  { cl with
    clusters_so_far := cl.clusters_so_far ++
      sub_clusters.map (fun sub_cluster =>
        sub_cluster.map (fun inner_index => cl.current_cluster.getD inner_index 0)) }

/-- The `for current_index in ranked_indices` loop of
`Clusterer::collect_clusters`, parameterised by the effect `inner` of the
recursive `Clusterer::new().collect_clusters(spun_off_matrix)` call.
Besides the final clusterer state it returns a trace of every
`(matrix, cluster)` argument handed to `spin_off` for recursive refinement
(at any depth; the recursive call's own trace is spliced in). -/
def collectLoop
    (inner : SimilarityMatrix → Option (Clusterer × List (SimilarityMatrix × Cluster)))
    (m : SimilarityMatrix) :
    List Index → Clusterer → Option (Clusterer × List (SimilarityMatrix × Cluster))
  | [], cl => some (cl, [])
  | current_index :: rest, cl =>
    if cl.can_add current_index then
      let cl1 := cl.new_cluster current_index
      let siblings := (m.row current_index).ranked_siblings cl1.to_be_excluded
      let cl2 := siblings.foldl Clusterer.add_to_cluster cl1
      if cl2.current_cluster_len < 3 ∨ cl2.current_cluster_len = m.size then
        collectLoop inner m rest cl2.commit_current_cluster
      else
        match inner (m.spin_off cl2.current_cluster 0) with
        | none => none
        | some (inner_cl, inner_trace) =>
          match collectLoop inner m rest
              (cl2.commit_inner_clusters inner_cl.clusters_so_far) with
          | none => none
          | some (final_cl, final_trace) =>
            some (final_cl,
              (m, cl2.current_cluster) :: inner_trace ++ final_trace)
    else
      collectLoop inner m rest cl

/-- One invocation of `Clusterer::collect_clusters` on a fresh clusterer:
rank the indices and run the loop, the recursive call being a fresh
invocation one fuel level down.  The Rust recursion has no fuel; `none`
models exhausting the chosen recursion-depth bound without the source
having returned. -/
def collectClustersRec : ℕ → SimilarityMatrix →
    Option (Clusterer × List (SimilarityMatrix × Cluster))
  | 0, _ => none
  | fuel + 1, m =>
    collectLoop (collectClustersRec fuel) m m.rank_by_weight Clusterer.new

/-- `Clusterer::collect_clusters` on a fresh clusterer, returning the
committed clusters and the refinement trace. -/
def Clusterer.collect_clusters (fuel : ℕ) (m : SimilarityMatrix) :
    Option (List Cluster × List (SimilarityMatrix × Cluster)) :=
  (collectClustersRec fuel m).map (fun r => (r.1.clusters_so_far, r.2))

/-- `Clusterer::cluster`. -/
def Clusterer.cluster (m : SimilarityMatrix) : Option ClusteringResult :=
  (Clusterer.collect_clusters (m.size + 1) m).map (fun r => ⟨r.1, m⟩)

/-- Whole pipeline: build the matrix from elements, threshold, candidate
pairs and metric, then cluster it. -/
def runClusters [Inhabited α] (elements : List α) (min_similarity : Similarity)
    (pairs : List (Index × Index)) (metric : α → α → Similarity) :
    Option (List Cluster) :=
  (SimilarityMatrix.new elements min_similarity pairs metric).bind
    (fun m => (Clusterer.cluster m).map (fun r => r.clusters))

/-! ## Generic facts about the sort model -/

instance : IsTotal Score scoreDescRel :=
  ⟨fun a b => le_total b.similarity a.similarity⟩

instance : IsTrans Score scoreDescRel :=
  ⟨fun _ _ _ h1 h2 => le_trans h2 h1⟩

instance : IsTotal Similarity simAscRel := ⟨fun a b => le_total a b⟩

instance : IsTrans Similarity simAscRel := ⟨fun _ _ _ h1 h2 => le_trans h1 h2⟩

theorem rankRel_trans {a b c : Index × Size × Similarity}
    (h1 : rankRel a b) (h2 : rankRel b c) : rankRel a c := by
  rcases h1 with h1 | ⟨h1e, h1s⟩ <;> rcases h2 with h2 | ⟨h2e, h2s⟩
  · exact Or.inl (lt_trans h2 h1)
  · exact Or.inl (h2e ▸ h1)
  · exact Or.inl (h1e ▸ h2)
  · exact Or.inr ⟨h1e.trans h2e, lt_trans h2s h1s⟩

theorem rankRel_asymm {a b : Index × Size × Similarity}
    (h : rankRel a b) : ¬ rankRel b a := by
  rcases h with h | ⟨he, hs⟩
  · rintro (h' | ⟨h'e, _⟩)
    · exact absurd h (not_lt_of_lt h')
    · exact absurd h (h'e ▸ lt_irrefl _)
  · rintro (h' | ⟨_, h's⟩)
    · exact absurd h' (he ▸ lt_irrefl _)
    · exact absurd hs (not_lt_of_lt h's)

/-- After stable sorting with `rankRel`, no later entry is strictly
rank-greater than an earlier one. -/
theorem pairwise_insertionSort_rankRel (l : List (Index × Size × Similarity)) :
    List.Pairwise (fun a b => ¬ rankRel b a) (List.insertionSort rankRel l) := by
  induction l with
  | nil => simp [List.insertionSort]
  | cons a l ih =>
    rw [List.insertionSort]
    generalize hs : List.insertionSort rankRel l = s at ih
    clear hs l
    induction s with
    | nil => simp [List.orderedInsert]
    | cons b s ihs =>
      rw [List.orderedInsert]
      rcases List.pairwise_cons.mp ih with ⟨hb, hs'⟩
      by_cases hab : rankRel a b
      · rw [if_pos hab]
        refine List.pairwise_cons.mpr ⟨?_, ih⟩
        intro z hz
        rcases List.mem_cons.mp hz with rfl | hz
        · exact rankRel_asymm hab
        · intro hza
          exact hb z hz (rankRel_trans hza hab)
      · rw [if_neg hab]
        refine List.pairwise_cons.mpr ⟨?_, ihs hs'⟩
        intro z hz
        rcases List.mem_orderedInsert rankRel |>.mp hz with rfl | hz
        · exact hab
        · exact hb z hz

/-- The head of the rank-sorted list has a maximal sibling count. -/
theorem head_insertionSort_rankRel_max {l : List (Index × Size × Similarity)}
    {h : Index × Size × Similarity} {t : List (Index × Size × Similarity)}
    (he : List.insertionSort rankRel l = h :: t) :
    ∀ x ∈ l, x.2.1 ≤ h.2.1 := by
  intro x hx
  have hmem : x ∈ h :: t := he ▸ (List.perm_insertionSort rankRel l).symm.subset hx
  rcases List.mem_cons.mp hmem with rfl | hxt
  · exact le_refl _
  · have hp := pairwise_insertionSort_rankRel l
    rw [he] at hp
    have := (List.pairwise_cons.mp hp).1 x hxt
    rw [rankRel, not_or, not_lt] at this
    exact this.1

/-! ## Facts about `mapTo` -/

theorem mapTo_lt_length {l : List Index} {x : Index} (hx : x ∈ l) :
    mapTo l x < l.length := by
  induction l with
  | nil => cases hx
  | cons a l ih =>
    rw [mapTo]
    by_cases hm : x ∈ l
    · rw [if_pos hm]
      simpa using ih hm
    · rw [if_neg hm]
      rcases List.mem_cons.mp hx with rfl | hc
      · simp
      · exact absurd hc hm

theorem getD_mapTo {l : List Index} {x : Index} (hx : x ∈ l) :
    l.getD (mapTo l x) 0 = x := by
  induction l with
  | nil => cases hx
  | cons a l ih =>
    rw [mapTo]
    by_cases hm : x ∈ l
    · rw [if_pos hm]
      simpa using ih hm
    · rw [if_neg hm]
      rcases List.mem_cons.mp hx with rfl | hc
      · simp
      · exact absurd hc hm

theorem mapTo_getD {l : List Index} (hnd : l.Nodup) {k : ℕ} (hk : k < l.length) :
    mapTo l (l.getD k 0) = k := by
  induction l generalizing k with
  | nil => simp at hk
  | cons a l ih =>
    rcases List.nodup_cons.mp hnd with ⟨ha, hnd'⟩
    match k with
    | 0 =>
      have : a ∉ l := ha
      simp [mapTo, this]
    | k + 1 =>
      have hk' : k < l.length := by simpa using hk
      have hmem : l.getD k 0 ∈ l := by
        rw [List.getD_eq_getElem _ _ hk']
        exact List.getElem_mem _
      rw [List.getD_cons_succ, mapTo, if_pos hmem, ih hnd' hk']

theorem mapTo_inj {l : List Index} (hnd : l.Nodup) {x y : Index}
    (hx : x ∈ l) (hy : y ∈ l) (h : mapTo l x = mapTo l y) : x = y := by
  have := getD_mapTo hx
  rw [h, getD_mapTo hy] at this
  exact this.symm

theorem mapTo_range {n x : Index} (hx : x < n) : mapTo (List.range n) x = x := by
  have hlen : x < (List.range n).length := by simpa using hx
  have := mapTo_getD (List.nodup_range n) hlen
  rwa [List.getD_eq_getElem _ _ hlen, List.getElem_range] at this

/-! ## Basic facts about `rank_by_weight` -/

theorem rank_by_weight_perm_range (m : SimilarityMatrix) :
    (m.rank_by_weight).Perm (List.range m.size) := by
  unfold SimilarityMatrix.rank_by_weight
  have h1 := (List.perm_insertionSort rankRel
    ((List.range m.rows.length).map (fun index =>
      (index, (m.rows.getD index ⟨[]⟩).scores.length,
        ((m.rows.getD index ⟨[]⟩).scores.map (fun score => score.similarity)).sum)))).map
    (fun t : Index × Size × Similarity => t.1)
  refine h1.trans ?_
  rw [List.map_map]
  simp [Function.comp_def, SimilarityMatrix.size]

theorem mem_rank_by_weight {m : SimilarityMatrix} {x : Index} :
    x ∈ m.rank_by_weight ↔ x < m.size := by
  rw [(rank_by_weight_perm_range m).mem_iff, List.mem_range]

/-! ## Characterisation of the rows built by `SimilarityMatrix::new` -/

/-- The scores a single retained triplet contributes to row `a` (one per
`scores.push` in the merge loop of `SimilarityMatrix::new`). -/
def contrib (a : Index) (t : Index × Index × Similarity) : List Score :=
  (if a = t.1 then [⟨t.2.1, t.2.2⟩] else []) ++
    (if a = t.2.1 then [⟨t.1, t.2.2⟩] else [])

theorem pushScore_length (rows : List Row) (i : Index) (s : Score) :
    (pushScore rows i s).length = rows.length :=
  List.length_set ..

theorem getD_pushScore_ne (rows : List Row) {i a : Index} (s : Score)
    (h : i ≠ a) : (pushScore rows i s).getD a ⟨[]⟩ = rows.getD a ⟨[]⟩ := by
  unfold pushScore
  simp [List.getD_eq_getElem?_getD, List.getElem?_set_ne h]

theorem getD_pushScore_self (rows : List Row) {i : Index} (s : Score)
    (h : i < rows.length) :
    (pushScore rows i s).getD i ⟨[]⟩ = ⟨(rows.getD i ⟨[]⟩).scores ++ [s]⟩ := by
  unfold pushScore
  simp [List.getD_eq_getElem?_getD, List.getElem?_set_self, h]

theorem foldl_mergeStep_length (tr : List (Index × Index × Similarity)) :
    ∀ rows : List Row, (tr.foldl mergeStep rows).length = rows.length := by
  induction tr with
  | nil => intro rows; rfl
  | cons t tr ih =>
    intro rows
    rw [List.foldl_cons, ih]
    simp [mergeStep, pushScore_length]

theorem foldl_mergeStep_getD (tr : List (Index × Index × Similarity)) :
    ∀ rows : List Row, (∀ t ∈ tr, t.1 < rows.length ∧ t.2.1 < rows.length) →
      ∀ a, ((tr.foldl mergeStep rows).getD a ⟨[]⟩).scores =
        (rows.getD a ⟨[]⟩).scores ++ tr.flatMap (contrib a) := by
  induction tr with
  | nil => intro rows _ a; simp
  | cons t tr ih =>
    intro rows hin a
    have ht := hin t (List.mem_cons_self t tr)
    have hstep : ((mergeStep rows t).getD a ⟨[]⟩).scores =
        (rows.getD a ⟨[]⟩).scores ++ contrib a t := by
      unfold mergeStep contrib
      by_cases h2 : a = t.2.1
      · rw [h2]
        rw [getD_pushScore_self _ _ (by rw [pushScore_length]; exact ht.2)]
        by_cases h1 : t.2.1 = t.1
        · rw [h1, getD_pushScore_self _ _ ht.1]
          simp [h1]
        · rw [getD_pushScore_ne _ _ (fun h => h1 h.symm)]
          simp [h1]
      · rw [getD_pushScore_ne _ _ (fun h => h2 h.symm)]
        by_cases h1 : a = t.1
        · rw [h1, getD_pushScore_self _ _ ht.1]
          have h2' : ¬ t.1 = t.2.1 := fun h => h2 (h1.trans h)
          simp [h2']
        · rw [getD_pushScore_ne _ _ (fun h => h1 h.symm)]
          simp [h1, h2]
    have hin' : ∀ u ∈ tr, u.1 < (mergeStep rows t).length ∧
        u.2.1 < (mergeStep rows t).length := by
      intro u hu
      have : (mergeStep rows t).length = rows.length := by
        simp [mergeStep, pushScore_length]
      rw [this]
      exact hin u (List.mem_cons_of_mem t hu)
    rw [List.foldl_cons, ih (mergeStep rows t) hin' a, hstep]
    simp

theorem build_size [Inhabited α] (elements : List α) (ms : Similarity)
    (pairs : List (Index × Index)) (metric : α → α → Similarity) :
    (SimilarityMatrix.build elements ms pairs metric).size = elements.length := by
  unfold SimilarityMatrix.build SimilarityMatrix.size
  simp [foldl_mergeStep_length, mergeStep, pushScore]

theorem mem_similarityTriplets [Inhabited α] {elements : List α}
    {ms : Similarity} {pairs : List (Index × Index)}
    {metric : α → α → Similarity} {t : Index × Index × Similarity} :
    t ∈ similarityTriplets elements ms pairs metric ↔
      ∃ p ∈ pairs,
        t = (p.1, p.2, metric (elements.getD p.1 default) (elements.getD p.2 default)) ∧
        0 < t.2.2 ∧ ms ≤ t.2.2 := by
  unfold similarityTriplets
  simp only [List.mem_filter, List.mem_map, Bool.and_eq_true, decide_eq_true_eq]
  constructor
  · rintro ⟨⟨p, hp, rfl⟩, h0, hm⟩
    exact ⟨p, hp, rfl, h0, hm⟩
  · rintro ⟨p, hp, rfl, h0, hm⟩
    exact ⟨⟨p, hp, rfl⟩, h0, hm⟩

/-- Each row of a built matrix is the stable descending sort of the
contributions of the retained triplets. -/
theorem build_row [Inhabited α] (elements : List α) (ms : Similarity)
    (pairs : List (Index × Index)) (metric : α → α → Similarity)
    (hp : ∀ p ∈ pairs, p.1 < elements.length ∧ p.2 < elements.length)
    {a : Index} (ha : a < elements.length) :
    (SimilarityMatrix.build elements ms pairs metric).row a =
      ⟨List.insertionSort scoreDescRel
        ((similarityTriplets elements ms pairs metric).flatMap (contrib a))⟩ := by
  have hin : ∀ t ∈ similarityTriplets elements ms pairs metric,
      t.1 < (List.replicate elements.length (Row.mk [])).length ∧
        t.2.1 < (List.replicate elements.length (Row.mk [])).length := by
    intro t ht
    rcases mem_similarityTriplets.mp ht with ⟨p, hpm, rfl, -, -⟩
    simpa using hp p hpm
  have hfold := foldl_mergeStep_getD _ _ hin a
  have hlen : ((similarityTriplets elements ms pairs metric).foldl mergeStep
      (List.replicate elements.length (Row.mk []))).length = elements.length := by
    rw [foldl_mergeStep_length]; simp
  unfold SimilarityMatrix.build SimilarityMatrix.row
  have ha2 : a < ((similarityTriplets elements ms pairs metric).foldl mergeStep
      (List.replicate elements.length (Row.mk []))).length := by
    rw [hlen]; exact ha
  have hmap : a < (((similarityTriplets elements ms pairs metric).foldl mergeStep
      (List.replicate elements.length (Row.mk []))).map
      (fun r => Row.mk (List.insertionSort scoreDescRel r.scores))).length := by
    simpa using ha2
  rw [List.getD_eq_getElem _ _ hmap, List.getElem_map]
  rw [List.getD_eq_getElem _ _ ha2] at hfold
  rw [hfold]
  have hrep : (List.replicate elements.length (Row.mk [])).getD a ⟨[]⟩ = ⟨[]⟩ := by
    rw [List.getD_eq_getElem?_getD, List.getElem?_replicate]
    split <;> rfl
  rw [hrep]
  rfl

/-- Membership in a built row. -/
theorem mem_build_row [Inhabited α] {elements : List α} {ms : Similarity}
    {pairs : List (Index × Index)} {metric : α → α → Similarity}
    (hp : ∀ p ∈ pairs, p.1 < elements.length ∧ p.2 < elements.length)
    {a : Index} (ha : a < elements.length) {sc : Score} :
    sc ∈ ((SimilarityMatrix.build elements ms pairs metric).row a).scores ↔
      ∃ t ∈ similarityTriplets elements ms pairs metric,
        (a = t.1 ∧ sc = ⟨t.2.1, t.2.2⟩) ∨ (a = t.2.1 ∧ sc = ⟨t.1, t.2.2⟩) := by
  rw [build_row elements ms pairs metric hp ha]
  show sc ∈ List.insertionSort scoreDescRel _ ↔ _
  rw [(List.perm_insertionSort scoreDescRel _).mem_iff, List.mem_flatMap]
  constructor
  · rintro ⟨t, ht, hsc⟩
    refine ⟨t, ht, ?_⟩
    unfold contrib at hsc
    rcases List.mem_append.mp hsc with h | h <;> [skip; skip]
    · by_cases h1 : a = t.1
      · simp only [if_pos h1, List.mem_singleton] at h
        exact Or.inl ⟨h1, h⟩
      · simp [if_neg h1] at h
    · by_cases h2 : a = t.2.1
      · simp only [if_pos h2, List.mem_singleton] at h
        exact Or.inr ⟨h2, h⟩
      · simp [if_neg h2] at h
  · rintro ⟨t, ht, (⟨rfl, rfl⟩ | ⟨h2, rfl⟩)⟩
    · exact ⟨t, ht, by simp [contrib]⟩
    · refine ⟨t, ht, ?_⟩
      unfold contrib
      rw [← h2]
      simp

/-! ## Well-formedness of matrices -/

/-- A similarity matrix is well formed when every row has pairwise distinct
sibling indices, all in range, none equal to the row's own index, and only
positive similarities.  `SimilarityMatrix::new` produces such matrices from
distinct in-range pairs, and `spin_off` preserves the property. -/
def Wf (m : SimilarityMatrix) : Prop :=
  ∀ i, i < m.size →
    (((m.row i).scores.map (fun sc => sc.sibling_index)).Nodup ∧
      ∀ sc ∈ (m.row i).scores,
        sc.sibling_index < m.size ∧ sc.sibling_index ≠ i ∧ 0 < sc.similarity)

/-- Sibling indices contributed to row `a` by a retained triplet. -/
def sibContrib (a : Index) (t : Index × Index × Similarity) : List Index :=
  (if a = t.1 then [t.2.1] else []) ++ (if a = t.2.1 then [t.1] else [])

theorem map_sibling_contrib (a : Index) (t : Index × Index × Similarity) :
    (contrib a t).map (fun sc => sc.sibling_index) = sibContrib a t := by
  unfold contrib sibContrib
  rw [List.map_append]
  congr 1 <;> split <;> simp

theorem mem_sibContrib {a x : Index} {t : Index × Index × Similarity} :
    x ∈ sibContrib a t ↔ (a = t.1 ∧ x = t.2.1) ∨ (a = t.2.1 ∧ x = t.1) := by
  unfold sibContrib
  by_cases h1 : a = t.1 <;> by_cases h2 : a = t.2.1 <;>
    simp [h1, h2, eq_comm]

theorem sibContrib_nodup {a : Index} {t : Index × Index × Similarity}
    (hlt : t.1 < t.2.1) : (sibContrib a t).Nodup := by
  have hne : t.1 ≠ t.2.1 := ne_of_lt hlt
  have hne' : t.2.1 ≠ t.1 := ne_of_gt hlt
  unfold sibContrib
  by_cases h1 : a = t.1 <;> by_cases h2 : a = t.2.1
  · exact absurd (h1.symm.trans h2) hne
  · simp [h1, h2, hne, hne']
  · simp [h1, h2, hne, hne']
  · simp [h1, h2]

/-- The sibling contributions to a fixed row across a list of triplets with
distinct `(row, column)` keys and `row < column` are pairwise distinct. -/
theorem sibs_flatMap_nodup (a : Index) (tr : List (Index × Index × Similarity))
    (hlt : ∀ t ∈ tr, t.1 < t.2.1)
    (hnd : (tr.map (fun t => (t.1, t.2.1))).Nodup) :
    (tr.flatMap (sibContrib a)).Nodup := by
  induction tr with
  | nil => simp
  | cons t tr ih =>
    rw [List.flatMap_cons, List.nodup_append]
    rcases List.nodup_cons.mp hnd with ⟨hkey, hnd'⟩
    refine ⟨sibContrib_nodup (hlt t (List.mem_cons_self t tr)), ?_, ?_⟩
    · exact ih (fun u hu => hlt u (List.mem_cons_of_mem t hu)) hnd'
    · intro x hx hx'
      rcases List.mem_flatMap.mp hx' with ⟨u, hu, hxu⟩
      have hltt := hlt t (List.mem_cons_self t tr)
      have hltu := hlt u (List.mem_cons_of_mem t hu)
      have hkey' : (t.1, t.2.1) ≠ (u.1, u.2.1) := by
        intro h
        apply hkey
        show (t.1, t.2.1) ∈ _
        rw [h]
        exact List.mem_map_of_mem _ hu
      rcases mem_sibContrib.mp hx with ⟨rfl, rfl⟩ | ⟨h2, rfl⟩ <;>
        rcases mem_sibContrib.mp hxu with ⟨hu1, hu2⟩ | ⟨hu1, hu2⟩
      · exact hkey' (by rw [← hu1, ← hu2])
      · rw [← hu2, ← hu1] at hltu
        exact absurd hltt (not_lt_of_lt hltu)
      · rw [← hu1, ← hu2] at hltu
        rw [h2] at hltu
        exact absurd hltt (not_lt_of_lt hltu)
      · exact hkey' (by rw [← hu2, ← h2, hu1])

theorem triplet_keys_nodup [Inhabited α] {elements : List α} {ms : Similarity}
    {pairs : List (Index × Index)} {metric : α → α → Similarity}
    (hnd : pairs.Nodup) :
    ((similarityTriplets elements ms pairs metric).map
      (fun t => (t.1, t.2.1))).Nodup := by
  unfold similarityTriplets
  have hsub := List.Sublist.map (fun t : Index × Index × Similarity => (t.1, t.2.1))
    (@List.filter_sublist (Index × Index × Similarity)
      (fun t => decide (0 < t.2.2) && decide (ms ≤ t.2.2))
      ((pairs.map (fun p =>
        (p.1, p.2, metric (elements.getD p.1 default) (elements.getD p.2 default))))))
  refine List.Nodup.sublist hsub ?_
  rw [List.map_map]
  have : ((fun t : Index × Index × Similarity => (t.1, t.2.1)) ∘ (fun p : Index × Index =>
      (p.1, p.2, metric (elements.getD p.1 default) (elements.getD p.2 default))))
      = fun p : Index × Index => p := by
    funext p
    simp
  rw [this]
  simpa using hnd

theorem Wf_build [Inhabited α] (elements : List α) (ms : Similarity)
    (pairs : List (Index × Index)) (metric : α → α → Similarity)
    (hp : ∀ p ∈ pairs, p.1 < p.2 ∧ p.2 < elements.length) (hnd : pairs.Nodup) :
    Wf (SimilarityMatrix.build elements ms pairs metric) := by
  have hp' : ∀ p ∈ pairs, p.1 < elements.length ∧ p.2 < elements.length :=
    fun p h => ⟨lt_trans (hp p h).1 (hp p h).2, (hp p h).2⟩
  have hlt : ∀ t ∈ similarityTriplets elements ms pairs metric, t.1 < t.2.1 := by
    intro t ht
    rcases mem_similarityTriplets.mp ht with ⟨p, hpm, rfl, -, -⟩
    exact (hp p hpm).1
  intro i hi
  rw [build_size] at hi
  constructor
  · rw [build_row elements ms pairs metric hp' hi]
    have hperm := (List.perm_insertionSort scoreDescRel
      ((similarityTriplets elements ms pairs metric).flatMap (contrib i))).map
      (fun sc => sc.sibling_index)
    refine hperm.nodup_iff.mpr ?_
    rw [List.map_flatMap]
    have : ∀ t ∈ similarityTriplets elements ms pairs metric,
        (contrib i t).map (fun sc => sc.sibling_index) = sibContrib i t :=
      fun t _ => map_sibling_contrib i t
    rw [List.flatMap_congr this]
    exact sibs_flatMap_nodup i _ hlt (triplet_keys_nodup hnd)
  · intro sc hsc
    rcases (mem_build_row hp' hi).mp hsc with ⟨t, ht, hcase⟩
    rcases mem_similarityTriplets.mp ht with ⟨p, hpm, rfl, h0, -⟩
    rw [build_size]
    rcases hcase with ⟨h1, rfl⟩ | ⟨h2, rfl⟩
    · exact ⟨(hp' p hpm).2, by simp [h1]; exact ne_of_gt (hp p hpm).1, h0⟩
    · exact ⟨(hp' p hpm).1, by simp [h2]; exact ne_of_lt (hp p hpm).1, h0⟩

/-! ## Facts about `spin_off` -/

theorem spin_off_size (m : SimilarityMatrix) (indices : List Index)
    (ms : Similarity) : (m.spin_off indices ms).size = indices.length := by
  unfold SimilarityMatrix.spin_off SimilarityMatrix.size
  simp

theorem spin_off_row (m : SimilarityMatrix) (indices : List Index)
    (ms : Similarity) {i : Index} (hi : i < indices.length) :
    (m.spin_off indices ms).row i =
      ⟨((m.row (indices.getD i 0)).scores.filter (fun score =>
          decide (score.sibling_index ∈ indices) &&
            decide (ms ≤ score.similarity))).map
        (fun score => ⟨mapTo indices score.sibling_index, score.similarity⟩)⟩ := by
  have hrows : (m.spin_off indices ms).rows = indices.map (fun previous_index =>
      Row.mk (((m.row previous_index).scores.filter (fun score =>
          decide (score.sibling_index ∈ indices) &&
            decide (ms ≤ score.similarity))).map
        (fun score => Score.mk (mapTo indices score.sibling_index)
          score.similarity))) := rfl
  rw [SimilarityMatrix.row, hrows]
  have hlen : i < (indices.map (fun previous_index =>
      Row.mk (((m.row previous_index).scores.filter (fun score =>
          decide (score.sibling_index ∈ indices) &&
            decide (ms ≤ score.similarity))).map
        (fun score => Score.mk (mapTo indices score.sibling_index)
          score.similarity)))).length := by
    simpa using hi
  rw [List.getD_eq_getElem _ _ hlen, List.getElem_map]
  rw [List.getD_eq_getElem _ _ hi]

/-- Scores of a spun-off row are exactly the images of the kept scores of
the original row. -/
theorem mem_spin_off_row (m : SimilarityMatrix) (indices : List Index)
    (ms : Similarity) {i : Index} (hi : i < indices.length) {sc : Score} :
    sc ∈ ((m.spin_off indices ms).row i).scores ↔
      ∃ sc0 ∈ (m.row (indices.getD i 0)).scores,
        sc0.sibling_index ∈ indices ∧ ms ≤ sc0.similarity ∧
        sc = ⟨mapTo indices sc0.sibling_index, sc0.similarity⟩ := by
  rw [spin_off_row m indices ms hi]
  show sc ∈ List.map _ _ ↔ _
  rw [List.mem_map]
  constructor
  · rintro ⟨sc0, hsc0, rfl⟩
    rcases List.mem_filter.mp hsc0 with ⟨hmem, hcond⟩
    rcases Bool.and_eq_true _ _ |>.mp hcond with ⟨h1, h2⟩
    exact ⟨sc0, hmem, of_decide_eq_true h1, of_decide_eq_true h2, rfl⟩
  · rintro ⟨sc0, hmem, h1, h2, rfl⟩
    refine ⟨sc0, List.mem_filter.mpr ⟨hmem, ?_⟩, rfl⟩
    simp [h1, h2]

theorem Wf_spin_off {m : SimilarityMatrix} (hwf : Wf m) {indices : List Index}
    (hnd : indices.Nodup) (hin : ∀ x ∈ indices, x < m.size)
    (ms : Similarity) : Wf (m.spin_off indices ms) := by
  intro i hi
  rw [spin_off_size] at hi
  have hprev : indices.getD i 0 ∈ indices := by
    rw [List.getD_eq_getElem _ _ hi]
    exact List.getElem_mem _
  have hprev_lt : indices.getD i 0 < m.size := hin _ hprev
  rcases hwf _ hprev_lt with ⟨hnd0, hsc0⟩
  constructor
  · rw [spin_off_row m indices ms hi]
    show (List.map _ (List.map _ _)).Nodup
    rw [List.map_map]
    have hsubnd : (((m.row (indices.getD i 0)).scores.filter (fun score =>
        decide (score.sibling_index ∈ indices) &&
          decide (ms ≤ score.similarity))).map
        (fun sc => sc.sibling_index)).Nodup :=
      List.Nodup.sublist
        (List.Sublist.map _ (List.filter_sublist _)) hnd0
    have : (((m.row (indices.getD i 0)).scores.filter (fun score =>
        decide (score.sibling_index ∈ indices) &&
          decide (ms ≤ score.similarity))).map
        ((fun sc => sc.sibling_index) ∘
          (fun score => Score.mk (mapTo indices score.sibling_index)
            score.similarity))) =
        (((m.row (indices.getD i 0)).scores.filter (fun score =>
          decide (score.sibling_index ∈ indices) &&
            decide (ms ≤ score.similarity))).map
          (fun sc => sc.sibling_index)).map (mapTo indices) := by
      rw [List.map_map]
      rfl
    rw [this]
    refine List.Nodup.map_on ?_ hsubnd
    intro x hx y hy hxy
    have hxm : x ∈ indices := by
      rcases List.mem_map.mp hx with ⟨sc0, hsc0', rfl⟩
      rcases List.mem_filter.mp hsc0' with ⟨-, hcond⟩
      rcases Bool.and_eq_true _ _ |>.mp hcond with ⟨h1, -⟩
      exact of_decide_eq_true h1
    have hym : y ∈ indices := by
      rcases List.mem_map.mp hy with ⟨sc0, hsc0', rfl⟩
      rcases List.mem_filter.mp hsc0' with ⟨-, hcond⟩
      rcases Bool.and_eq_true _ _ |>.mp hcond with ⟨h1, -⟩
      exact of_decide_eq_true h1
    exact mapTo_inj hnd hxm hym hxy
  · intro sc hsc
    rcases (mem_spin_off_row m indices ms hi).mp hsc with
      ⟨sc0, hmem0, hsib0, -, rfl⟩
    rcases hsc0 sc0 hmem0 with ⟨-, hne0, hpos0⟩
    refine ⟨?_, ?_, hpos0⟩
    · rw [spin_off_size]
      exact mapTo_lt_length hsib0
    · intro h
      apply hne0
      have := getD_mapTo hsib0
      rw [show mapTo indices sc0.sibling_index = i from h] at this
      exact this.symm

/-! ## Degrees and the head of `rank_by_weight` -/

/-- Number of retained siblings of an index (its row length). -/
def degree (m : SimilarityMatrix) (i : Index) : ℕ :=
  ((m.row i).scores).length

theorem rank_head_full (m : SimilarityMatrix) (hne : 0 < m.size) :
    ∃ h t, m.rank_by_weight = h :: t ∧ h < m.size ∧
      ∀ x, x < m.size → degree m x ≤ degree m h := by
  unfold SimilarityMatrix.rank_by_weight
  set ordered := (List.range m.rows.length).map (fun index =>
    (index, (m.rows.getD index ⟨[]⟩).scores.length,
      ((m.rows.getD index ⟨[]⟩).scores.map (fun score => score.similarity)).sum))
    with hordered
  have hlen : (List.insertionSort rankRel ordered).length = m.size := by
    rw [(List.perm_insertionSort rankRel ordered).length_eq]
    simp [hordered, SimilarityMatrix.size]
  match hs : List.insertionSort rankRel ordered with
  | [] =>
    rw [hs] at hlen
    rw [← hlen] at hne
    simp at hne
  | ht :: tt =>
    have hmax := head_insertionSort_rankRel_max hs
    have htmem : ht ∈ ordered :=
      (List.perm_insertionSort rankRel ordered).subset (hs ▸ List.mem_cons_self ht tt)
    rcases List.mem_map.mp htmem with ⟨j, hj, hjt⟩
    refine ⟨ht.1, tt.map (fun t => t.1), List.map_cons .., ?_, ?_⟩
    · rw [← hjt]
      simpa [SimilarityMatrix.size] using List.mem_range.mp hj
    · intro x hx
      have hxmem : (x, (m.rows.getD x ⟨[]⟩).scores.length,
          ((m.rows.getD x ⟨[]⟩).scores.map (fun score => score.similarity)).sum) ∈
            ordered := by
        rw [hordered]
        exact List.mem_map_of_mem _ (List.mem_range.mpr (by
          simpa [SimilarityMatrix.size] using hx))
      have := hmax _ hxmem
      have hdeg : degree m ht.1 = ht.2.1 := by
        rw [← hjt]
        rfl
      rw [hdeg]
      exact this

/-! ## Facts about `ranked_siblings` -/

theorem ranked_siblings_perm (r : Row) (excl : Finset Index) :
    (r.ranked_siblings excl).Perm
      ((r.scores.filter (fun sc => sc.sibling_index ∉ excl)).map
        (fun sc => sc.sibling_index)) := by
  unfold Row.ranked_siblings
  exact (List.perm_insertionSort scoreDescRel _).map _

theorem mem_ranked_siblings {r : Row} {excl : Finset Index} {x : Index} :
    x ∈ r.ranked_siblings excl ↔
      (∃ sc ∈ r.scores, sc.sibling_index = x) ∧ x ∉ excl := by
  rw [(ranked_siblings_perm r excl).mem_iff, List.mem_map]
  constructor
  · rintro ⟨sc, hsc, rfl⟩
    rcases List.mem_filter.mp hsc with ⟨hmem, hcond⟩
    exact ⟨⟨sc, hmem, rfl⟩, by simpa using hcond⟩
  · rintro ⟨⟨sc, hmem, rfl⟩, hnotin⟩
    exact ⟨sc, List.mem_filter.mpr ⟨hmem, by simpa using hnotin⟩, rfl⟩

theorem ranked_siblings_nodup {r : Row} {excl : Finset Index}
    (h : (r.scores.map (fun sc => sc.sibling_index)).Nodup) :
    (r.ranked_siblings excl).Nodup := by
  refine (ranked_siblings_perm r excl).nodup_iff.mpr ?_
  have : ((r.scores.filter (fun sc => sc.sibling_index ∉ excl)).map
      (fun sc => sc.sibling_index)).Sublist
        (r.scores.map (fun sc => sc.sibling_index)) :=
    List.Sublist.map _ (List.filter_sublist _)
  exact List.Nodup.sublist this h

/-! ## Clusterer state facts -/

theorem new_cluster_eq (cl : Clusterer) (i : Index) :
    cl.new_cluster i =
      ⟨cl.clusters_so_far, insert i cl.visited_so_far, [i]⟩ := rfl

theorem foldl_add_to_cluster (siblings : List Index) :
    ∀ cl : Clusterer, siblings.foldl Clusterer.add_to_cluster cl =
      ⟨cl.clusters_so_far, cl.visited_so_far ∪ siblings.toFinset,
        cl.current_cluster ++ siblings⟩ := by
  induction siblings with
  | nil =>
    intro cl
    cases cl
    simp
  | cons a l ih =>
    intro cl
    rw [List.foldl_cons, ih]
    unfold Clusterer.add_to_cluster
    simp [Finset.insert_union, Finset.union_insert]

theorem collectLoop_all_visited
    (inner : SimilarityMatrix → Option (Clusterer × List (SimilarityMatrix × Cluster)))
    (m : SimilarityMatrix) :
    ∀ (ranked : List Index) (cl : Clusterer),
      (∀ x ∈ ranked, x ∈ cl.visited_so_far) →
      collectLoop inner m ranked cl = some (cl, []) := by
  intro ranked
  induction ranked with
  | nil =>
    intro cl _
    rw [collectLoop]
  | cons c rest ih =>
    intro cl h
    rw [collectLoop]
    have hc : ¬ cl.can_add c := fun hcan => hcan (h c (List.mem_cons_self c rest))
    rw [if_neg hc]
    exact ih cl (fun x hx => h x (List.mem_cons_of_mem c hx))

theorem map_getD_range (l : List ℕ) :
    (List.range l.length).map (fun k => l.getD k 0) = l := by
  apply List.ext_getElem
  · simp
  · intro i h1 h2
    rw [List.getElem_map, List.getElem_range, List.getD_eq_getElem _ _ h2]

/-! ## Degree bounds and full rows -/

theorem degree_le {m : SimilarityMatrix} (hwf : Wf m) {h : Index}
    (hh : h < m.size) : degree m h ≤ m.size - 1 := by
  rcases hwf h hh with ⟨hnd, hb⟩
  have hcard : ((m.row h).scores.map (fun sc => sc.sibling_index)).toFinset.card
      = degree m h := by
    rw [List.toFinset_card_of_nodup hnd]
    simp [degree]
  have hsub : ((m.row h).scores.map (fun sc => sc.sibling_index)).toFinset ⊆
      (Finset.range m.size).erase h := by
    intro x hx
    rcases List.mem_map.mp (List.mem_toFinset.mp hx) with ⟨sc, hsc, rfl⟩
    rcases hb sc hsc with ⟨h1, h2, -⟩
    exact Finset.mem_erase.mpr ⟨h2, Finset.mem_range.mpr h1⟩
  have := Finset.card_le_card hsub
  rw [hcard, Finset.card_erase_of_mem (Finset.mem_range.mpr hh),
    Finset.card_range] at this
  exact this

theorem row_full_iff {m : SimilarityMatrix} (hwf : Wf m) {h : Index}
    (hh : h < m.size) (hdeg : degree m h = m.size - 1) :
    ∀ x, (∃ sc ∈ (m.row h).scores, sc.sibling_index = x) ↔
      (x < m.size ∧ x ≠ h) := by
  rcases hwf h hh with ⟨hnd, hb⟩
  have hcard : ((m.row h).scores.map (fun sc => sc.sibling_index)).toFinset.card
      = m.size - 1 := by
    rw [List.toFinset_card_of_nodup hnd]
    simpa [degree] using hdeg
  have hsub : ((m.row h).scores.map (fun sc => sc.sibling_index)).toFinset ⊆
      (Finset.range m.size).erase h := by
    intro x hx
    rcases List.mem_map.mp (List.mem_toFinset.mp hx) with ⟨sc, hsc, rfl⟩
    rcases hb sc hsc with ⟨h1, h2, -⟩
    exact Finset.mem_erase.mpr ⟨h2, Finset.mem_range.mpr h1⟩
  have heq : ((m.row h).scores.map (fun sc => sc.sibling_index)).toFinset =
      (Finset.range m.size).erase h := by
    apply Finset.eq_of_subset_of_card_le hsub
    rw [hcard, Finset.card_erase_of_mem (Finset.mem_range.mpr hh),
      Finset.card_range]
  intro x
  have hmem : x ∈ ((m.row h).scores.map (fun sc => sc.sibling_index)).toFinset ↔
      (x < m.size ∧ x ≠ h) := by
    rw [heq, Finset.mem_erase, Finset.mem_range]
    exact ⟨fun ⟨a, b⟩ => ⟨b, a⟩, fun ⟨a, b⟩ => ⟨b, a⟩⟩
  rw [← hmem, List.mem_toFinset, List.mem_map]

/-- Unfolding of one loop iteration on an unvisited seed, with the
clusterer state after sibling collection spelled out. -/
theorem collectLoop_cons_new
    (inner : SimilarityMatrix → Option (Clusterer × List (SimilarityMatrix × Cluster)))
    (m : SimilarityMatrix) (cl : Clusterer) (current : Index)
    (rest : List Index) (hcan : cl.can_add current) :
    collectLoop inner m (current :: rest) cl =
      (let siblings :=
        (m.row current).ranked_siblings (insert current cl.visited_so_far)
      let cl2 : Clusterer := ⟨cl.clusters_so_far,
        insert current cl.visited_so_far ∪ siblings.toFinset,
        current :: siblings⟩
      if cl2.current_cluster_len < 3 ∨ cl2.current_cluster_len = m.size then
        collectLoop inner m rest cl2.commit_current_cluster
      else
        match inner (m.spin_off cl2.current_cluster 0) with
        | none => none
        | some (inner_cl, inner_trace) =>
          match collectLoop inner m rest
              (cl2.commit_inner_clusters inner_cl.clusters_so_far) with
          | none => none
          | some (final_cl, final_trace) =>
            some (final_cl,
              (m, cl2.current_cluster) :: inner_trace ++ final_trace)) := by
  rw [collectLoop, if_pos hcan]
  dsimp only
  rw [new_cluster_eq, foldl_add_to_cluster]
  rfl

/-- On a well-formed matrix with an index adjacent to every other index,
the loop commits the whole index set as one cluster: the first ranked seed
has maximal degree, its row reaches everything, the `len == size` branch
commits directly, and every later ranked index is already visited. -/
theorem collect_whole
    (inner : SimilarityMatrix → Option (Clusterer × List (SimilarityMatrix × Cluster)))
    {m : SimilarityMatrix} (hwf : Wf m) (hpos : 0 < m.size)
    (hfull : ∃ i, i < m.size ∧ degree m i = m.size - 1) :
    ∃ (cl : Clusterer) (c : Cluster),
      collectLoop inner m m.rank_by_weight Clusterer.new = some (cl, []) ∧
      cl.clusters_so_far = [c] ∧ c.Perm (List.range m.size) := by
  rcases rank_head_full m hpos with ⟨h, t, hrank, hh, hmax⟩
  rcases hfull with ⟨i, hi, hdi⟩
  have hdh : degree m h = m.size - 1 :=
    le_antisymm (degree_le hwf hh) (hdi ▸ hmax i hi)
  have hfulliff := row_full_iff hwf hh hdh
  have hcan : (Clusterer.new).can_add h := by
    simp [Clusterer.new, Clusterer.can_add]
  rw [hrank, collectLoop_cons_new inner m Clusterer.new h t hcan]
  dsimp only
  set siblings :=
    (m.row h).ranked_siblings (insert h (Clusterer.new).visited_so_far)
    with hsib
  have hmemsib : ∀ x, x ∈ siblings ↔ (x < m.size ∧ x ≠ h) := by
    intro x
    rw [hsib, mem_ranked_siblings, hfulliff x]
    simp [Clusterer.new]
  have hndsib : siblings.Nodup :=
    ranked_siblings_nodup (hwf h hh).1
  have hndc : (h :: siblings).Nodup := by
    rw [List.nodup_cons]
    exact ⟨fun hmem => ((hmemsib h).mp hmem).2 rfl, hndsib⟩
  have hpermc : (h :: siblings).Perm (List.range m.size) := by
    apply List.perm_of_nodup_nodup_toFinset_eq hndc (List.nodup_range _)
    ext x
    simp only [List.mem_toFinset, List.mem_cons, List.mem_range, hmemsib x]
    constructor
    · rintro (rfl | ⟨hx, -⟩)
      · exact hh
      · exact hx
    · intro hx
      by_cases hxh : x = h
      · exact Or.inl hxh
      · exact Or.inr ⟨hx, hxh⟩
  have hlenc : (h :: siblings).length = m.size := by
    rw [hpermc.length_eq, List.length_range]
  have hcond : ((⟨(Clusterer.new).clusters_so_far,
      insert h (Clusterer.new).visited_so_far ∪ siblings.toFinset,
      h :: siblings⟩ : Clusterer).current_cluster_len < 3 ∨
      (⟨(Clusterer.new).clusters_so_far,
        insert h (Clusterer.new).visited_so_far ∪ siblings.toFinset,
        h :: siblings⟩ : Clusterer).current_cluster_len = m.size) :=
    Or.inr hlenc
  rw [if_pos hcond]
  have hrest : ∀ x ∈ t, x ∈ ((⟨(Clusterer.new).clusters_so_far,
      insert h (Clusterer.new).visited_so_far ∪ siblings.toFinset,
      h :: siblings⟩ : Clusterer).commit_current_cluster).visited_so_far := by
    intro x hx
    have hxsize : x < m.size := by
      rw [← mem_rank_by_weight (m := m), hrank]
      exact List.mem_cons_of_mem h hx
    show x ∈ insert h (Clusterer.new).visited_so_far ∪ siblings.toFinset
    by_cases hxh : x = h
    · exact Finset.mem_union_left _ (by simp [hxh])
    · exact Finset.mem_union_right _
        (List.mem_toFinset.mpr ((hmemsib x).mpr ⟨hxsize, hxh⟩))
  rw [collectLoop_all_visited inner m t _ hrest]
  exact ⟨_, h :: siblings, rfl, rfl, hpermc⟩

/-- Facts about the matrix spun off (at floor `0.0`) from a freshly
collected cluster `seed :: siblings`: the cluster is duplicate-free and in
range, the derived matrix has the cluster's length as its size, is well
formed, and its local index `0` (the seed) is adjacent to every other local
index. -/
theorem derived_facts {m : SimilarityMatrix} (hwf : Wf m) {seed : Index}
    (hseed : seed < m.size) (old : Finset Index) (c : Cluster)
    (hc : c = seed :: (m.row seed).ranked_siblings (insert seed old)) :
    c.Nodup ∧ (∀ x ∈ c, x < m.size) ∧
      (m.spin_off c 0).size = c.length ∧ Wf (m.spin_off c 0) ∧
      degree (m.spin_off c 0) 0 = c.length - 1 := by
  rcases hwf seed hseed with ⟨hndrow, hbrow⟩
  set siblings := (m.row seed).ranked_siblings (insert seed old) with hsib
  have hndsib : siblings.Nodup := ranked_siblings_nodup hndrow
  have hsibmem : ∀ x ∈ siblings,
      (∃ sc ∈ (m.row seed).scores, sc.sibling_index = x) ∧
        x ∉ insert seed old :=
    fun x hx => mem_ranked_siblings.mp hx
  have hseednot : seed ∉ siblings :=
    fun hmem => (hsibmem seed hmem).2 (Finset.mem_insert_self _ _)
  have hndc : c.Nodup := by
    rw [hc, List.nodup_cons]
    exact ⟨hseednot, hndsib⟩
  have hbc : ∀ x ∈ c, x < m.size := by
    intro x hx
    rcases List.mem_cons.mp (hc ▸ hx) with rfl | hx'
    · exact hseed
    · rcases (hsibmem x hx').1 with ⟨sc, hsc, rfl⟩
      exact (hbrow sc hsc).1
  have hsize : (m.spin_off c 0).size = c.length := spin_off_size m c 0
  have hwf' : Wf (m.spin_off c 0) := Wf_spin_off hwf hndc hbc 0
  refine ⟨hndc, hbc, hsize, hwf', ?_⟩
  have hcpos : 0 < c.length := by rw [hc]; simp
  have hget0 : c.getD 0 0 = seed := by rw [hc]; rfl
  rw [degree, spin_off_row m c 0 hcpos, hget0]
  show (List.map _ _).length = _
  rw [List.length_map]
  have hfc : ∀ sc ∈ (m.row seed).scores,
      ((decide (sc.sibling_index ∈ c) && decide ((0:ℚ) ≤ sc.similarity)) =
        decide (sc.sibling_index ∈ siblings)) := by
    intro sc hsc
    rcases hbrow sc hsc with ⟨-, hne, hpos⟩
    have h0 : ((0:ℚ) ≤ sc.similarity) := le_of_lt hpos
    have hmc : (sc.sibling_index ∈ c) ↔ (sc.sibling_index ∈ siblings) := by
      rw [hc, List.mem_cons]
      exact ⟨fun h => h.resolve_left hne, Or.inr⟩
    by_cases hm : sc.sibling_index ∈ siblings
    · simp [hmc.mpr hm, hm, h0]
    · have hnc : sc.sibling_index ∉ c := fun h => hm (hmc.mp h)
      simp [hnc, hm]
  rw [List.filter_congr hfc]
  have hpermL : (((m.row seed).scores.filter
      (fun sc => decide (sc.sibling_index ∈ siblings))).map
      (fun sc => sc.sibling_index)).Perm siblings := by
    apply List.perm_of_nodup_nodup_toFinset_eq
    · exact List.Nodup.sublist (List.Sublist.map _ (List.filter_sublist _)) hndrow
    · exact hndsib
    · ext x
      simp only [List.mem_toFinset, List.mem_map]
      constructor
      · rintro ⟨sc, hsc, rfl⟩
        rcases List.mem_filter.mp hsc with ⟨-, hcond⟩
        exact of_decide_eq_true hcond
      · intro hx
        rcases (hsibmem x hx).1 with ⟨sc, hsc, rfl⟩
        exact ⟨sc, List.mem_filter.mpr ⟨hsc, decide_eq_true hx⟩, rfl⟩
  have : ((m.row seed).scores.filter
      (fun sc => decide (sc.sibling_index ∈ siblings))).length =
      siblings.length := by
    rw [← List.length_map _ (fun sc => sc.sibling_index)]
    exact hpermL.length_eq
  rw [this, hc]
  simp

/-- The recursive refinement is a no-op: running `collect_clusters` on the
matrix spun off from a freshly collected cluster returns that whole cluster
(as local indices) as the single committed cluster, with an empty
refinement trace. -/
theorem refine_noop
    (inner : SimilarityMatrix → Option (Clusterer × List (SimilarityMatrix × Cluster)))
    {m : SimilarityMatrix} (hwf : Wf m) {seed : Index}
    (hseed : seed < m.size) (old : Finset Index) (c : Cluster)
    (hc : c = seed :: (m.row seed).ranked_siblings (insert seed old)) :
    ∃ (cl : Clusterer) (d : Cluster),
      collectLoop inner (m.spin_off c 0)
          (m.spin_off c 0).rank_by_weight Clusterer.new = some (cl, []) ∧
      cl.clusters_so_far = [d] ∧
      (d.map (fun k => c.getD k 0)).Perm c := by
  obtain ⟨hndc, hbc, hsize, hwf', hdeg⟩ := derived_facts hwf hseed old c hc
  have hcpos : 0 < c.length := by rw [hc]; simp
  have hpos' : 0 < (m.spin_off c 0).size := by rw [hsize]; exact hcpos
  have hfull : ∃ i, i < (m.spin_off c 0).size ∧
      degree (m.spin_off c 0) i = (m.spin_off c 0).size - 1 :=
    ⟨0, hpos', by rw [hdeg, hsize]⟩
  obtain ⟨cl, d, hrun, hcl, hdperm⟩ := collect_whole inner hwf' hpos' hfull
  refine ⟨cl, d, hrun, hcl, ?_⟩
  have h1 : (d.map (fun k => c.getD k 0)).Perm
      ((List.range c.length).map (fun k => c.getD k 0)) := by
    refine List.Perm.map _ ?_
    rw [← hsize]
    exact hdperm
  rw [map_getD_range c] at h1
  exact h1

/-! ## Loop invariant of `collect_clusters` -/

/-- Invariant of the clusterer state: committed clusters are nonempty,
duplicate-free, in range, pairwise disjoint, and together they cover
exactly the visited set. -/
def Inv (m : SimilarityMatrix) (cl : Clusterer) : Prop :=
  (∀ c ∈ cl.clusters_so_far, c ≠ [] ∧ c.Nodup ∧ ∀ x ∈ c, x < m.size) ∧
  List.Pairwise (fun c d => ∀ x, x ∈ c → x ∉ d) cl.clusters_so_far ∧
  (∀ x, x ∈ cl.visited_so_far ↔ ∃ c ∈ cl.clusters_so_far, x ∈ c)

theorem Inv_int (m : SimilarityMatrix) : Inv m Clusterer.new := by
  refine ⟨?_, ?_, ?_⟩ <;> simp [Clusterer.new]

/-- Main specification of the `collect_clusters` loop on a well-formed
matrix: it succeeds (given at least one unit of recursion fuel), maintains
the invariant, visits every ranked index, and every cluster it hands to
`spin_off` is a provisional cluster in the strict sense: duplicate-free, in
range, of length at least `3` and different from the matrix size. -/
theorem collectLoop_spec {m : SimilarityMatrix} (hwf : Wf m) (fuel : ℕ)
    (hfuel : 1 ≤ fuel) :
    ∀ ranked : List Index, (∀ x ∈ ranked, x < m.size) →
    ∀ cl : Clusterer, Inv m cl →
      ∃ cl2 tr,
        collectLoop (collectClustersRec fuel) m ranked cl = some (cl2, tr) ∧
        Inv m cl2 ∧
        (∀ x ∈ ranked, x ∈ cl2.visited_so_far) ∧
        (∀ x, x ∈ cl.visited_so_far → x ∈ cl2.visited_so_far) ∧
        (∀ e ∈ tr, e.1 = m ∧ 3 ≤ e.2.length ∧ e.2.length ≠ m.size ∧
          e.2.Nodup ∧ ∀ x ∈ e.2, x < m.size) := by
  intro ranked
  induction ranked with
  | nil =>
    intro _ cl hinv
    exact ⟨cl, [], by rw [collectLoop], hinv, by simp, fun _ h => h, by simp⟩
  | cons current rest ih =>
    intro hbound cl hinv
    have hcur : current < m.size := hbound current (List.mem_cons_self current rest)
    have hrest : ∀ x ∈ rest, x < m.size :=
      fun x hx => hbound x (List.mem_cons_of_mem _ hx)
    by_cases hcan : cl.can_add current
    case neg =>
      rw [collectLoop, if_neg hcan]
      obtain ⟨cl2, tr, hrun, hi2, hcov, hmono, htr⟩ := ih hrest cl hinv
      refine ⟨cl2, tr, hrun, hi2, ?_, hmono, htr⟩
      intro x hx
      rcases List.mem_cons.mp hx with rfl | hx
      · exact hmono x (not_not.mp hcan)
      · exact hcov x hx
    case pos =>
      rw [collectLoop_cons_new _ m cl current rest hcan]
      dsimp only
      set siblings :=
        (m.row current).ranked_siblings (insert current cl.visited_so_far)
        with hsib
      set c : Cluster := current :: siblings with hcdef
      have hndsib : siblings.Nodup := ranked_siblings_nodup (hwf current hcur).1
      have hsibmem : ∀ x ∈ siblings,
          (∃ sc ∈ (m.row current).scores, sc.sibling_index = x) ∧
            x ∉ insert current cl.visited_so_far :=
        fun x hx => mem_ranked_siblings.mp hx
      have hndc : c.Nodup := by
        rw [hcdef, List.nodup_cons]
        exact ⟨fun hmem => (hsibmem current hmem).2 (Finset.mem_insert_self _ _),
          hndsib⟩
      have hbc : ∀ x ∈ c, x < m.size := by
        intro x hx
        rcases List.mem_cons.mp (hcdef ▸ hx) with rfl | hx'
        · exact hcur
        · rcases (hsibmem x hx').1 with ⟨sc, hsc, rfl⟩
          exact ((hwf current hcur).2 sc hsc).1
      have hfresh : ∀ x ∈ c, x ∉ cl.visited_so_far := by
        intro x hx
        rcases List.mem_cons.mp (hcdef ▸ hx) with rfl | hx'
        · exact hcan
        · exact fun hv => (hsibmem x hx').2 (Finset.mem_insert_of_mem hv)
      have hvis2 : ∀ x,
          x ∈ insert current cl.visited_so_far ∪ siblings.toFinset ↔
            x ∈ cl.visited_so_far ∨ x ∈ c := by
        intro x
        simp only [Finset.mem_union, Finset.mem_insert, List.mem_toFinset,
          hcdef, List.mem_cons]
        tauto
      have hcurmem : current ∈ c := by rw [hcdef]; exact List.mem_cons_self _ _
      have hinvnew : ∀ (newc : Cluster) (cur' : List Index), newc ≠ [] →
          newc.Nodup → (∀ x, x ∈ newc ↔ x ∈ c) →
          Inv m ⟨cl.clusters_so_far ++ [newc],
            insert current cl.visited_so_far ∪ siblings.toFinset, cur'⟩ := by
        intro newc cur' hne hnd hiff
        refine ⟨?_, ?_, ?_⟩
        · intro d hd
          rcases List.mem_append.mp hd with hd | hd
          · exact hinv.1 d hd
          · rcases List.mem_singleton.mp hd with rfl
            exact ⟨hne, hnd, fun x hx => hbc x ((hiff x).mp hx)⟩
        · rw [List.pairwise_append]
          refine ⟨hinv.2.1, by simp, ?_⟩
          intro d hd e he x hxd
          rcases List.mem_singleton.mp he with rfl
          intro hxe
          exact hfresh x ((hiff x).mp hxe) ((hinv.2.2 x).mpr ⟨d, hd, hxd⟩)
        · intro x
          show x ∈ insert current cl.visited_so_far ∪ siblings.toFinset ↔ _
          rw [hvis2 x]
          constructor
          · rintro (hv | hc')
            · rcases (hinv.2.2 x).mp hv with ⟨d, hd, hxd⟩
              exact ⟨d, List.mem_append_left _ hd, hxd⟩
            · exact ⟨newc, List.mem_append_right _ (List.mem_singleton_self _),
                (hiff x).mpr hc'⟩
          · rintro ⟨d, hd, hxd⟩
            rcases List.mem_append.mp hd with hd | hd
            · exact Or.inl ((hinv.2.2 x).mpr ⟨d, hd, hxd⟩)
            · rcases List.mem_singleton.mp hd with rfl
              exact Or.inr ((hiff x).mp hxd)
      by_cases hcond : ((⟨cl.clusters_so_far,
          insert current cl.visited_so_far ∪ siblings.toFinset,
          c⟩ : Clusterer).current_cluster_len < 3 ∨
          (⟨cl.clusters_so_far,
            insert current cl.visited_so_far ∪ siblings.toFinset,
            c⟩ : Clusterer).current_cluster_len = m.size)
      case pos =>
        rw [if_pos hcond]
        have hinv3 : Inv m ((⟨cl.clusters_so_far,
            insert current cl.visited_so_far ∪ siblings.toFinset,
            c⟩ : Clusterer).commit_current_cluster) :=
          hinvnew c [] (by rw [hcdef]; simp) hndc (fun x => Iff.rfl)
        obtain ⟨cl4, tr, hrun, hi4, hcov4, hmono4, htr4⟩ := ih hrest _ hinv3
        refine ⟨cl4, tr, hrun, hi4, ?_, ?_, htr4⟩
        · intro x hx
          rcases List.mem_cons.mp hx with rfl | hx
          · exact hmono4 x ((hvis2 x).mpr (Or.inr hcurmem))
          · exact hcov4 x hx
        · intro x hx
          exact hmono4 x ((hvis2 x).mpr (Or.inl hx))
      case neg =>
        rw [if_neg hcond]
        obtain ⟨f, rfl⟩ : ∃ f, fuel = f + 1 := ⟨fuel - 1, by omega⟩
        obtain ⟨icl, d, hirun, hicl, hdperm⟩ :=
          refine_noop (collectClustersRec f) hwf hcur cl.visited_so_far c hcdef
        have hinner : collectClustersRec (f + 1)
            (m.spin_off ((⟨cl.clusters_so_far,
              insert current cl.visited_so_far ∪ siblings.toFinset,
              c⟩ : Clusterer).current_cluster) 0) = some (icl, []) := by
          rw [collectClustersRec]
          exact hirun
        rw [hinner]
        dsimp only
        rw [hicl]
        have hmapped : ((d.map (fun k => c.getD k 0))).Perm c := hdperm
        have hinv4 : Inv m ((⟨cl.clusters_so_far,
            insert current cl.visited_so_far ∪ siblings.toFinset,
            c⟩ : Clusterer).commit_inner_clusters [d]) := by
          refine hinvnew (d.map (fun k => c.getD k 0)) c ?_ ?_ ?_
          · apply List.ne_nil_of_length_pos
            rw [hmapped.length_eq, hcdef]
            simp
          · exact hmapped.nodup_iff.mpr hndc
          · exact fun x => hmapped.mem_iff
        obtain ⟨cl5, tr5, hrun5, hi5, hcov5, hmono5, htr5⟩ := ih hrest _ hinv4
        rw [hrun5]
        have hlen3 : 3 ≤ c.length := by
          rcases not_or.mp hcond with ⟨h3, -⟩
          have : ¬ (c.length < 3) := h3
          omega
        have hlenne : c.length ≠ m.size := by
          rcases not_or.mp hcond with ⟨-, hs⟩
          exact hs
        refine ⟨cl5, (m, c) :: [] ++ tr5, rfl, hi5, ?_, ?_, ?_⟩
        · intro x hx
          rcases List.mem_cons.mp hx with rfl | hx
          · exact hmono5 x ((hvis2 x).mpr (Or.inr hcurmem))
          · exact hcov5 x hx
        · intro x hx
          exact hmono5 x ((hvis2 x).mpr (Or.inl hx))
        · intro e he
          rcases List.mem_cons.mp he with rfl | he
          · exact ⟨rfl, hlen3, hlenne, hndc, hbc⟩
          · exact htr5 e (by simpa using he)

/-- Whole-run consequence of the loop invariant for `Clusterer::cluster`'s
fuel choice. -/
theorem cluster_spec {m : SimilarityMatrix} (hwf : Wf m) (hpos : 1 ≤ m.size) :
    ∃ (cl : Clusterer) (tr : List (SimilarityMatrix × Cluster)),
      collectClustersRec (m.size + 1) m = some (cl, tr) ∧ Inv m cl ∧
      (∀ x, x < m.size → x ∈ cl.visited_so_far) ∧
      (∀ e ∈ tr, e.1 = m ∧ 3 ≤ e.2.length ∧ e.2.length ≠ m.size ∧
        e.2.Nodup ∧ ∀ x ∈ e.2, x < m.size) := by
  obtain ⟨cl2, tr, hrun, hinv, hcov, -, htr⟩ :=
    collectLoop_spec hwf m.size hpos m.rank_by_weight
      (fun x hx => mem_rank_by_weight.mp hx) Clusterer.new (Inv_int m)
  refine ⟨cl2, tr, ?_, hinv, ?_, htr⟩
  · rw [collectClustersRec]
    exact hrun
  · intro x hx
    exact hcov x (mem_rank_by_weight.mpr hx)

/-- C1 (amended): for every *well-formed* similarity matrix of size at
least 1 — in particular any matrix built from distinct in-range candidate
pairs — the clusters returned by `Clusterer::cluster` partition the index
range `0..N`: no cluster is empty, the clusters are pairwise disjoint, and
their union is exactly the set of indices below `N`. -/
theorem cluster_partitions {m : SimilarityMatrix} (hwf : Wf m)
    (hpos : 1 ≤ m.size) :
    ∃ res : ClusteringResult, Clusterer.cluster m = some res ∧
      (∀ c ∈ res.clusters, c ≠ [] ∧ c.Nodup) ∧
      List.Pairwise (fun c d => ∀ x, x ∈ c → x ∉ d) res.clusters ∧
      (∀ x, (∃ c ∈ res.clusters, x ∈ c) ↔ x < m.size) := by
  obtain ⟨cl, tr, hrun, hinv, hcov, -⟩ := cluster_spec hwf hpos
  refine ⟨⟨cl.clusters_so_far, m⟩, ?_,
    fun c hc => ⟨(hinv.1 c hc).1, (hinv.1 c hc).2.1⟩,
    hinv.2.1, ?_⟩
  · unfold Clusterer.cluster Clusterer.collect_clusters
    rw [hrun]
    rfl
  · intro x
    constructor
    · rintro ⟨c, hc, hx⟩
      exact (hinv.1 c hc).2.2 x hx
    · intro hx
      exact (hinv.2.2 x).mp (hcov x hx)

/-- A small well-formed matrix built from distinct pairs, used by the
witnesses. -/
def pairMatrix : SimilarityMatrix :=
  SimilarityMatrix.build ([0, 1] : List ℕ) 0 [(0, 1)] (fun _ _ => (1 : ℚ) / 2)

/-- Witness for `cluster_partitions`: its hypotheses hold for
`pairMatrix` and the partition properties follow. -/
theorem cluster_partitions_witness :
    ∃ res : ClusteringResult, Clusterer.cluster pairMatrix = some res ∧
      (∀ c ∈ res.clusters, c ≠ [] ∧ c.Nodup) ∧
      List.Pairwise (fun c d => ∀ x, x ∈ c → x ∉ d) res.clusters ∧
      (∀ x, (∃ c ∈ res.clusters, x ∈ c) ↔ x < pairMatrix.size) :=
  cluster_partitions
    (Wf_build ([0, 1] : List ℕ) 0 [(0, 1)] (fun _ _ => (1 : ℚ) / 2)
      (by decide) (by decide))
    (by with_unfolding_all decide)

/-- A matrix built from a duplicated candidate pair: its only nonempty row
holds the same sibling twice. -/
def dupMatrix : SimilarityMatrix :=
  SimilarityMatrix.build ([0, 1] : List ℕ) 0 [(0, 1), (0, 1)]
    (fun _ _ => (1 : ℚ) / 2)

/-- C1 counterexample: a matrix of size `2 ≥ 1` reachable through
`SimilarityMatrix::new` (with a duplicated candidate pair) on which
`Clusterer::cluster` returns `[[0, 1, 1], [0]]` — the clusters are not
pairwise disjoint, so they do not partition `0..N`. -/
theorem cluster_partitions_cex :
    SimilarityMatrix.new ([0, 1] : List ℕ) 0 [(0, 1), (0, 1)]
        (fun _ _ => (1 : ℚ) / 2) = some dupMatrix ∧
    1 ≤ dupMatrix.size ∧
    (Clusterer.cluster dupMatrix).map (fun r => r.clusters) =
      some [[0, 1, 1], [0]] ∧
    ¬ List.Pairwise (fun c d => ∀ x, x ∈ c → x ∉ d) [[0, 1, 1], [0]] :=
  ⟨by with_unfolding_all rfl, by with_unfolding_all decide,
    by with_unfolding_all decide, by decide⟩

/-! ## The refinement trace always holds strictly provisional clusters -/

theorem collectLoop_trace_cond
    (inner : SimilarityMatrix → Option (Clusterer × List (SimilarityMatrix × Cluster)))
    (hinner : ∀ m' r', inner m' = some r' →
      ∀ e ∈ r'.2, 3 ≤ e.2.length ∧ e.2.length ≠ e.1.size)
    (m : SimilarityMatrix) :
    ∀ (ranked : List Index) (cl : Clusterer)
      (r : Clusterer × List (SimilarityMatrix × Cluster)),
      collectLoop inner m ranked cl = some r →
      ∀ e ∈ r.2, 3 ≤ e.2.length ∧ e.2.length ≠ e.1.size := by
  intro ranked
  induction ranked with
  | nil =>
    intro cl r h e he
    rw [collectLoop] at h
    cases h
    simp at he
  | cons current rest ih =>
    intro cl r h e he
    by_cases hcan : cl.can_add current
    · rw [collectLoop_cons_new inner m cl current rest hcan] at h
      dsimp only at h
      by_cases hcond : ((⟨cl.clusters_so_far,
          insert current cl.visited_so_far ∪
            ((m.row current).ranked_siblings
              (insert current cl.visited_so_far)).toFinset,
          current :: (m.row current).ranked_siblings
            (insert current cl.visited_so_far)⟩ : Clusterer).current_cluster_len
            < 3 ∨
          (⟨cl.clusters_so_far,
            insert current cl.visited_so_far ∪
              ((m.row current).ranked_siblings
                (insert current cl.visited_so_far)).toFinset,
            current :: (m.row current).ranked_siblings
              (insert current cl.visited_so_far)⟩ : Clusterer).current_cluster_len
            = m.size)
      · rw [if_pos hcond] at h
        exact ih _ r h e he
      · rw [if_neg hcond] at h
        cases hin : inner (m.spin_off
            (current :: (m.row current).ranked_siblings
              (insert current cl.visited_so_far)) 0) with
        | none =>
          rw [hin] at h
          simp at h
        | some ir =>
          rw [hin] at h
          dsimp only at h
          cases hloop : collectLoop inner m rest
              ((⟨cl.clusters_so_far,
                insert current cl.visited_so_far ∪
                  ((m.row current).ranked_siblings
                    (insert current cl.visited_so_far)).toFinset,
                current :: (m.row current).ranked_siblings
                  (insert current cl.visited_so_far)⟩ :
                Clusterer).commit_inner_clusters ir.1.clusters_so_far) with
          | none =>
            rw [hloop] at h
            simp at h
          | some fr =>
            rw [hloop] at h
            dsimp only at h
            cases h
            rcases List.mem_cons.mp he with rfl | he'
            · rcases not_or.mp hcond with ⟨h3, hs⟩
              refine ⟨?_, hs⟩
              show 3 ≤ (current :: (m.row current).ranked_siblings
                (insert current cl.visited_so_far)).length
              have h3' : ¬ ((current :: (m.row current).ranked_siblings
                  (insert current cl.visited_so_far)).length < 3) := h3
              omega
            · rcases List.mem_append.mp he' with he'' | he''
              · exact hinner _ ir hin e he''
              · exact ih _ fr hloop e he''
    · rw [collectLoop, if_neg hcan] at h
      exact ih cl r h e he

theorem collectClustersRec_trace_cond :
    ∀ (fuel : ℕ) (m : SimilarityMatrix)
      (r : Clusterer × List (SimilarityMatrix × Cluster)),
      collectClustersRec fuel m = some r →
      ∀ e ∈ r.2, 3 ≤ e.2.length ∧ e.2.length ≠ e.1.size := by
  intro fuel
  induction fuel with
  | zero =>
    intro m r h
    rw [collectClustersRec] at h
    simp at h
  | succ f ihf =>
    intro m r h
    rw [collectClustersRec] at h
    exact collectLoop_trace_cond _ (fun m' r' h' => ihf m' r' h') m _ _ r h

/-- C3 (amended): a provisional cluster is handed to `spin_off` for
recursive refinement exactly when its size is at least `3` *and* differs
from the current matrix's total size.  In particular a size-3 cluster in a
larger matrix *is* recursively refined, while clusters of size `< 3` or of
size equal to the matrix size are committed directly. -/
theorem spin_off_trace_cond (fuel : ℕ) (m : SimilarityMatrix)
    (r : List Cluster × List (SimilarityMatrix × Cluster))
    (h : Clusterer.collect_clusters fuel m = some r) :
    ∀ e ∈ r.2, 3 ≤ e.2.length ∧ e.2.length ≠ e.1.size := by
  unfold Clusterer.collect_clusters at h
  cases hrec : collectClustersRec fuel m with
  | none => rw [hrec] at h; simp at h
  | some q =>
    rw [hrec] at h
    simp only [Option.map_some'] at h
    cases h
    exact collectClustersRec_trace_cond fuel m q hrec

/-- A well-formed four-element matrix on which the first collected cluster
has exactly three members. -/
def pathMatrix : SimilarityMatrix :=
  SimilarityMatrix.build ([0, 1, 2, 3] : List ℕ) 0 [(0, 1), (0, 2)]
    (fun _ _ => (1 : ℚ) / 2)

/-- Witness for `spin_off_trace_cond` at a concrete run whose trace holds
one spun-off cluster. -/
theorem spin_off_trace_cond_witness :
    3 ≤ ([0, 1, 2] : Cluster).length ∧
      ([0, 1, 2] : Cluster).length ≠ pathMatrix.size :=
  spin_off_trace_cond (pathMatrix.size + 1) pathMatrix
    ([[0, 1, 2], [3]], [(pathMatrix, [0, 1, 2])]) (by with_unfolding_all decide)
    (pathMatrix, [0, 1, 2]) (List.mem_singleton_self _)

/-- C3 counterexample: on `pathMatrix` (size 4, reachable through
`SimilarityMatrix::new`), the run hands a cluster of length exactly `3` to
`spin_off` — a size-3 provisional cluster *is* recursively refined. -/
theorem size3_refined_cex :
    SimilarityMatrix.new ([0, 1, 2, 3] : List ℕ) 0 [(0, 1), (0, 2)]
        (fun _ _ => (1 : ℚ) / 2) = some pathMatrix ∧
    (Clusterer.collect_clusters (pathMatrix.size + 1) pathMatrix).map
      (fun r => r.2.map (fun e => (e.2.length, e.1.size))) =
        some [(3, 4)] :=
  ⟨by with_unfolding_all rfl, by with_unfolding_all decide⟩

/-- C7 (amended): on every *well-formed* matrix of size at least 1 — in
particular any matrix built from distinct in-range pairs — clustering
succeeds, and whenever `collect_clusters` recurses, the derived matrix
passed to the recursive call has size strictly smaller than the current
matrix's size. -/
theorem recursion_strictly_smaller {m : SimilarityMatrix} (hwf : Wf m)
    (hpos : 1 ≤ m.size) :
    ∃ r : List Cluster × List (SimilarityMatrix × Cluster),
      Clusterer.collect_clusters (m.size + 1) m = some r ∧
      ∀ e ∈ r.2, (e.1.spin_off e.2 0).size < e.1.size := by
  obtain ⟨cl, tr, hrun, -, -, htr⟩ := cluster_spec hwf hpos
  refine ⟨(cl.clusters_so_far, tr), ?_, ?_⟩
  · unfold Clusterer.collect_clusters
    rw [hrun]
    rfl
  · intro e he
    obtain ⟨hm, -, hne, hnd, hb⟩ := htr e he
    rw [spin_off_size, hm]
    have hcard : e.2.toFinset.card = e.2.length :=
      List.toFinset_card_of_nodup hnd
    have hsub : e.2.toFinset ⊆ Finset.range m.size :=
      fun x hx => Finset.mem_range.mpr (hb x (List.mem_toFinset.mp hx))
    have hle := Finset.card_le_card hsub
    rw [hcard, Finset.card_range] at hle
    exact lt_of_le_of_ne hle hne

/-- Witness for `recursion_strictly_smaller` on `pathMatrix`, whose run
does recurse once. -/
theorem recursion_strictly_smaller_witness :
    ∃ r : List Cluster × List (SimilarityMatrix × Cluster),
      Clusterer.collect_clusters (pathMatrix.size + 1) pathMatrix = some r ∧
      ∀ e ∈ r.2, (e.1.spin_off e.2 0).size < e.1.size :=
  recursion_strictly_smaller
    (Wf_build ([0, 1, 2, 3] : List ℕ) 0 [(0, 1), (0, 2)]
      (fun _ _ => (1 : ℚ) / 2) (by decide) (by decide))
    (by with_unfolding_all decide)

/-- C7 counterexample: on `dupMatrix` (size 2, reachable through
`SimilarityMatrix::new` with a duplicated pair), `collect_clusters`
recurses on a derived matrix of size `3 > 2` — the recursion does *not*
strictly decrease the matrix size. -/
theorem recursion_growth_cex :
    SimilarityMatrix.new ([0, 1] : List ℕ) 0 [(0, 1), (0, 1)]
        (fun _ _ => (1 : ℚ) / 2) = some dupMatrix ∧
    1 ≤ dupMatrix.size ∧
    (Clusterer.collect_clusters (dupMatrix.size + 1) dupMatrix).map
      (fun r => r.2.map (fun e => ((e.1.spin_off e.2 0).size, e.1.size))) =
        some [(3, 2)] :=
  ⟨by with_unfolding_all rfl, by with_unfolding_all decide,
    by with_unfolding_all decide⟩

/-- C10: `rank_by_weight` returns a permutation of `0..N` — every index
appears exactly once in the result — even when two indices have exactly
equal `(degree, weighted-degree)` keys, for which the comparator never
reports equality (on ties it answers `Greater` both ways; the stable sort
model still only rearranges the tuples, so no index is lost or
duplicated). -/
theorem rank_by_weight_exactly_once (m : SimilarityMatrix) :
    (m.rank_by_weight).Nodup ∧ ∀ x, x ∈ m.rank_by_weight ↔ x < m.size :=
  ⟨(rank_by_weight_perm_range m).nodup_iff.mpr (List.nodup_range _),
    fun _ => mem_rank_by_weight⟩

/-- The weighted degree of an index: the sum of its row's similarities. -/
def weightedDegree (m : SimilarityMatrix) (i : Index) : Similarity :=
  ((m.row i).scores.map (fun score => score.similarity)).sum

/-- C8: `rank_by_weight` orders all indices descending by the key
`(degree, weighted-degree)`: an index with a strictly greater degree, or an
equal degree and strictly greater weighted degree, appears strictly
earlier in the returned order. -/
theorem rank_by_weight_order {m : SimilarityMatrix} {a b : Index}
    (ha : a < m.size) (hb : b < m.size)
    (h : degree m b < degree m a ∨
      (degree m a = degree m b ∧ weightedDegree m b < weightedDegree m a)) :
    (m.rank_by_weight).indexOf a < (m.rank_by_weight).indexOf b := by
  have amem : a ∈ m.rank_by_weight := mem_rank_by_weight.mpr ha
  have bmem : b ∈ m.rank_by_weight := mem_rank_by_weight.mpr hb
  have hne : a ≠ b := by
    rintro rfl
    rcases h with h | ⟨-, h⟩ <;> exact lt_irrefl _ h
  set O := (List.range m.rows.length).map (fun index =>
    (index, (m.rows.getD index ⟨[]⟩).scores.length,
      ((m.rows.getD index ⟨[]⟩).scores.map (fun score => score.similarity)).sum))
    with hO
  set S := List.insertionSort rankRel O with hS
  have hrank : m.rank_by_weight = S.map (fun t => t.1) := rfl
  have hcanon : ∀ t ∈ S, t.2.1 = degree m t.1 ∧ t.2.2 = weightedDegree m t.1 := by
    intro t ht
    have htO : t ∈ O := (List.perm_insertionSort rankRel O).subset ht
    rcases List.mem_map.mp htO with ⟨j, -, rfl⟩
    exact ⟨rfl, rfl⟩
  have hia : (m.rank_by_weight).indexOf a < (m.rank_by_weight).length :=
    List.indexOf_lt_length.mpr amem
  have hib : (m.rank_by_weight).indexOf b < (m.rank_by_weight).length :=
    List.indexOf_lt_length.mpr bmem
  by_contra hcon
  push_neg at hcon
  have hine : (m.rank_by_weight).indexOf b ≠ (m.rank_by_weight).indexOf a := by
    intro heq
    have h1 := List.getElem_indexOf hia
    have h2 := List.getElem_indexOf hib
    apply hne
    calc a = (m.rank_by_weight)[(m.rank_by_weight).indexOf a] := h1.symm
      _ = (m.rank_by_weight)[(m.rank_by_weight).indexOf b] := by
          congr 1
          exact heq.symm
      _ = b := h2
  have hlt : (m.rank_by_weight).indexOf b < (m.rank_by_weight).indexOf a :=
    lt_of_le_of_ne hcon hine
  have hlen : (m.rank_by_weight).length = S.length := by
    rw [hrank, List.length_map]
  have hiaS : (m.rank_by_weight).indexOf a < S.length := hlen ▸ hia
  have hibS : (m.rank_by_weight).indexOf b < S.length := hlen ▸ hib
  have hp : List.Pairwise (fun x y => ¬ rankRel y x) S :=
    pairwise_insertionSort_rankRel O
  have hnotrel := List.pairwise_iff_getElem.mp hp _ _ hibS hiaS hlt
  apply hnotrel
  have hSa : (S[(m.rank_by_weight).indexOf a]).1 = a :=
    ((List.getElem_map (fun t : Index × Size × Similarity => t.1)).symm).trans
      (List.getElem_indexOf hia)
  have hSb : (S[(m.rank_by_weight).indexOf b]).1 = b :=
    ((List.getElem_map (fun t : Index × Size × Similarity => t.1)).symm).trans
      (List.getElem_indexOf hib)
  rcases hcanon _ (List.getElem_mem hiaS) with ⟨ha1, ha2⟩
  rcases hcanon _ (List.getElem_mem hibS) with ⟨hb1, hb2⟩
  show (S[(m.rank_by_weight).indexOf b]).2.1 <
      (S[(m.rank_by_weight).indexOf a]).2.1 ∨ _
  rw [ha1, ha2, hb1, hb2, hSa, hSb]
  exact h

/-- Witness for `rank_by_weight_order` on `pathMatrix`: index 0 has two
siblings, index 3 none, so 0 is ranked strictly before 3. -/
theorem rank_by_weight_order_witness :
    (pathMatrix.rank_by_weight).indexOf 0 < (pathMatrix.rank_by_weight).indexOf 3 :=
  rank_by_weight_order (by with_unfolding_all decide)
    (by with_unfolding_all decide)
    (Or.inl (by with_unfolding_all decide))

/-- C6: `SimilarityMatrix::new` fails (the `assert!` fires, modelled as
`none`) exactly when the element sequence is empty; the check runs before
any pair is evaluated or row is built, so a failed construction yields no
partial matrix, and for every non-empty element sequence the check passes
and the fully built matrix is returned. -/
theorem new_fails_iff_empty [Inhabited α] (elements : List α) (ms : Similarity)
    (pairs : List (Index × Index)) (metric : α → α → Similarity) :
    (SimilarityMatrix.new elements ms pairs metric = none ↔ elements = []) ∧
    (elements ≠ [] → SimilarityMatrix.new elements ms pairs metric =
      some (SimilarityMatrix.build elements ms pairs metric)) := by
  unfold SimilarityMatrix.new
  constructor
  · by_cases h : elements.length = 0
    · rw [if_pos h]
      simp [List.length_eq_zero.mp h]
    · rw [if_neg h]
      simp only [reduceCtorEq, false_iff]
      exact fun he => h (by rw [he]; rfl)
  · intro hne
    rw [if_neg (fun h => hne (List.length_eq_zero.mp h))]

/-- C5: `spin_off` applied to the full identity index list
`[0, ..., N-1]` with a new floor `t'` keeps the matrix size and replaces
every row by exactly its scores with similarity at least `t'`, endpoints
and values unchanged (the re-indexing map is the identity).  The only
assumption is the data-model invariant that sibling indices are positions
into the matrix. -/
theorem spin_off_identity {m : SimilarityMatrix}
    (hb : ∀ i, i < m.size → ∀ sc ∈ (m.row i).scores,
      sc.sibling_index < m.size)
    (t' : Similarity) :
    (m.spin_off (List.range m.size) t').size = m.size ∧
    ∀ i, i < m.size →
      ((m.spin_off (List.range m.size) t').row i).scores =
        (m.row i).scores.filter (fun sc => decide (t' ≤ sc.similarity)) := by
  constructor
  · rw [spin_off_size, List.length_range]
  · intro i hi
    have hi' : i < (List.range m.size).length := by simpa using hi
    rw [spin_off_row m (List.range m.size) t' hi']
    have hgd : (List.range m.size).getD i 0 = i := by
      rw [List.getD_eq_getElem _ _ hi', List.getElem_range]
    rw [hgd]
    show ((m.row i).scores.filter _).map _ = _
    have hfc : ∀ sc ∈ (m.row i).scores,
        ((decide (sc.sibling_index ∈ List.range m.size) &&
          decide (t' ≤ sc.similarity)) = decide (t' ≤ sc.similarity)) := by
      intro sc hsc
      have : sc.sibling_index ∈ List.range m.size :=
        List.mem_range.mpr (hb i hi sc hsc)
      simp [this]
    rw [List.filter_congr hfc]
    have hmapid : ∀ sc ∈ (m.row i).scores.filter
        (fun sc => decide (t' ≤ sc.similarity)),
        (Score.mk (mapTo (List.range m.size) sc.sibling_index)
          sc.similarity) = sc := by
      intro sc hsc
      have hmem := List.mem_of_mem_filter hsc
      have hlt : sc.sibling_index < m.size := hb i hi sc hmem
      rw [mapTo_range hlt]
    rw [List.map_congr_left hmapid, List.map_id']

/-- Witness for `spin_off_identity` on `pathMatrix`. -/
theorem spin_off_identity_witness :
    (pathMatrix.spin_off (List.range pathMatrix.size) 0).size =
      pathMatrix.size ∧
    ∀ i, i < pathMatrix.size →
      ((pathMatrix.spin_off (List.range pathMatrix.size) 0).row i).scores =
        (pathMatrix.row i).scores.filter
          (fun sc => decide ((0 : ℚ) ≤ sc.similarity)) :=
  spin_off_identity
    (fun i hi sc hsc =>
      ((Wf_build ([0, 1, 2, 3] : List ℕ) 0 [(0, 1), (0, 2)]
        (fun _ _ => (1 : ℚ) / 2) (by decide) (by decide) i hi).2 sc hsc).1)
    0

/-! ## Symmetry of the built matrix -/

/-- An edge between `i` and `j` was retained during construction: some
supplied pair relates the two and its evaluated similarity survives the
`similarity > 0 && similarity >= min_similarity` filter. -/
def Retained [Inhabited α] (elements : List α) (ms : Similarity)
    (pairs : List (Index × Index)) (metric : α → α → Similarity)
    (i j : Index) : Prop :=
  ∃ p ∈ pairs, (p = (i, j) ∨ p = (j, i)) ∧
    0 < metric (elements.getD p.1 default) (elements.getD p.2 default) ∧
    ms ≤ metric (elements.getD p.1 default) (elements.getD p.2 default)

/-- The single evaluated similarity between `i` and `j` (pairs are always
supplied with the smaller index first). -/
def edgeVal [Inhabited α] (elements : List α)
    (metric : α → α → Similarity) (i j : Index) : Similarity :=
  metric (elements.getD (min i j) default) (elements.getD (max i j) default)

theorem Retained_symm [Inhabited α] {elements : List α} {ms : Similarity}
    {pairs : List (Index × Index)} {metric : α → α → Similarity}
    {i j : Index} :
    Retained elements ms pairs metric i j ↔
      Retained elements ms pairs metric j i := by
  unfold Retained
  constructor <;>
    · rintro ⟨p, hpm, hor, h⟩
      exact ⟨p, hpm, hor.symm, h⟩

theorem edgeVal_symm [Inhabited α] {elements : List α}
    {metric : α → α → Similarity} {i j : Index} :
    edgeVal elements metric i j = edgeVal elements metric j i := by
  unfold edgeVal
  rw [min_comm, max_comm]

/-- Characterisation of `matrix[i][j]` (the `Row` lookup) on a built
matrix: the retained value when an edge exists, `0.0` otherwise. -/
theorem lookup_build [Inhabited α] {elements : List α} {ms : Similarity}
    {pairs : List (Index × Index)} {metric : α → α → Similarity}
    (hp : ∀ p ∈ pairs, p.1 < p.2 ∧ p.2 < elements.length)
    {a : Index} (ha : a < elements.length) (b : Index) :
    (Retained elements ms pairs metric a b →
      ((SimilarityMatrix.build elements ms pairs metric).row a).lookup b =
        edgeVal elements metric a b) ∧
    (¬ Retained elements ms pairs metric a b →
      ((SimilarityMatrix.build elements ms pairs metric).row a).lookup b
        = 0) := by
  have hp' : ∀ p ∈ pairs, p.1 < elements.length ∧ p.2 < elements.length :=
    fun p h => ⟨lt_trans (hp p h).1 (hp p h).2, (hp p h).2⟩
  have hmem : ∀ sc ∈ ((SimilarityMatrix.build elements ms pairs metric).row
      a).scores, sc.sibling_index = b →
      Retained elements ms pairs metric a b ∧
        sc.similarity = edgeVal elements metric a b := by
    intro sc hsc hsib
    rcases (mem_build_row hp' ha).mp hsc with ⟨t, ht, hcase⟩
    rcases mem_similarityTriplets.mp ht with ⟨p, hpm, rfl, h0, hms⟩
    rcases hcase with ⟨h1, rfl⟩ | ⟨h2, rfl⟩
    · have hb : p.2 = b := hsib
      have hab : a < b := by
        rw [h1, ← hb]
        exact (hp p hpm).1
      refine ⟨⟨p, hpm, Or.inl ?_, h0, hms⟩, ?_⟩
      · rw [h1, ← hb]
      · show metric (elements.getD p.1 default) (elements.getD p.2 default) =
          edgeVal elements metric a b
        unfold edgeVal
        rw [min_eq_left (le_of_lt hab), max_eq_right (le_of_lt hab), h1, hb]
    · have hb : p.1 = b := hsib
      have hba : b < a := by
        rw [h2, ← hb]
        exact (hp p hpm).1
      refine ⟨⟨p, hpm, Or.inr ?_, h0, hms⟩, ?_⟩
      · rw [h2, ← hb]
      · show metric (elements.getD p.1 default) (elements.getD p.2 default) =
          edgeVal elements metric a b
        unfold edgeVal
        rw [min_eq_right (le_of_lt hba), max_eq_left (le_of_lt hba), h2, hb]
  have hexist : Retained elements ms pairs metric a b →
      ∃ sc ∈ ((SimilarityMatrix.build elements ms pairs metric).row a).scores,
        sc.sibling_index = b := by
    rintro ⟨p, hpm, hor, h0, hms⟩
    have ht : (p.1, p.2,
        metric (elements.getD p.1 default) (elements.getD p.2 default)) ∈
          similarityTriplets elements ms pairs metric :=
      mem_similarityTriplets.mpr ⟨p, hpm, rfl, h0, hms⟩
    rcases hor with rfl | rfl
    · exact ⟨⟨b, metric (elements.getD a default) (elements.getD b default)⟩,
        (mem_build_row hp' ha).mpr ⟨_, ht, Or.inl ⟨rfl, rfl⟩⟩, rfl⟩
    · exact ⟨⟨b, metric (elements.getD b default) (elements.getD a default)⟩,
        (mem_build_row hp' ha).mpr ⟨_, ht, Or.inr ⟨rfl, rfl⟩⟩, rfl⟩
  cases hfind : ((SimilarityMatrix.build elements ms pairs metric).row
      a).scores.find? (fun sc => sc.sibling_index == b) with
  | none =>
    have hnone : ∀ sc ∈ ((SimilarityMatrix.build elements ms pairs
        metric).row a).scores, sc.sibling_index ≠ b := by
      intro sc hsc
      have := List.find?_eq_none.mp hfind sc hsc
      simpa using this
    constructor
    · intro hret
      exfalso
      rcases hexist hret with ⟨sc, hsc, hsib⟩
      exact hnone sc hsc hsib
    · intro _
      unfold Row.lookup
      rw [hfind]
  | some sc =>
    have hmemsc := List.mem_of_find?_eq_some hfind
    have hsib : sc.sibling_index = b := by
      have := List.find?_some hfind
      simpa using this
    rcases hmem sc hmemsc hsib with ⟨hret, hval⟩
    constructor
    · intro _
      unfold Row.lookup
      rw [hfind]
      exact hval
    · intro hnret
      exact absurd hret hnret

/-- C2: on every matrix built by `SimilarityMatrix::new` from candidate
pairs `(i, j)` with `i < j < N`, the lookup `matrix[i][j]` equals
`matrix[j][i]`, and both equal `0.0` whenever no edge between `i` and `j`
was retained. -/
theorem matrix_symmetric [Inhabited α] (elements : List α) (ms : Similarity)
    (pairs : List (Index × Index)) (metric : α → α → Similarity)
    (hp : ∀ p ∈ pairs, p.1 < p.2 ∧ p.2 < elements.length)
    {m : SimilarityMatrix}
    (hm : SimilarityMatrix.new elements ms pairs metric = some m)
    {i j : Index} (hi : i < m.size) (hj : j < m.size) :
    (m.row i).lookup j = (m.row j).lookup i ∧
      (¬ Retained elements ms pairs metric i j →
        (m.row i).lookup j = 0) := by
  have hbuild : m = SimilarityMatrix.build elements ms pairs metric := by
    unfold SimilarityMatrix.new at hm
    by_cases h : elements.length = 0
    · rw [if_pos h] at hm
      cases hm
    · rw [if_neg h] at hm
      exact (Option.some_injective _ hm).symm
  subst hbuild
  rw [build_size] at hi hj
  by_cases hret : Retained elements ms pairs metric i j
  · have h1 := (lookup_build hp hi j).1 hret
    have h2 := (lookup_build hp hj i).1 (Retained_symm.mp hret)
    refine ⟨?_, fun hn => absurd hret hn⟩
    rw [h1, h2, edgeVal_symm]
  · have h1 := (lookup_build hp hi j).2 hret
    have h2 := (lookup_build hp hj i).2 (fun hr => hret (Retained_symm.mpr hr))
    exact ⟨by rw [h1, h2], fun _ => h1⟩

/-- Witness for `matrix_symmetric` on the two-element build. -/
theorem matrix_symmetric_witness :
    (pairMatrix.row 0).lookup 1 = (pairMatrix.row 1).lookup 0 ∧
      (¬ Retained ([0, 1] : List ℕ) 0 [(0, 1)] (fun _ _ => (1 : ℚ) / 2) 0 1 →
        (pairMatrix.row 0).lookup 1 = 0) :=
  matrix_symmetric ([0, 1] : List ℕ) 0 [(0, 1)] (fun _ _ => (1 : ℚ) / 2)
    (by decide) (by with_unfolding_all rfl)
    (by with_unfolding_all decide) (by with_unfolding_all decide)

/-! ## `similarity_values` is the sorted set of retained similarities -/

theorem dedupSorted_sorted (l : List Similarity) :
    List.Sorted (· < ·) (dedupSorted l) := by
  have hs : List.Sorted simAscRel (List.insertionSort simAscRel l.dedup) :=
    List.sorted_insertionSort simAscRel l.dedup
  have hnd : (dedupSorted l).Nodup :=
    (List.perm_insertionSort simAscRel l.dedup).nodup_iff.mpr
      (List.nodup_dedup l)
  have hle : List.Sorted (· ≤ ·) (dedupSorted l) := hs.imp (fun h => h)
  exact hle.lt_of_le hnd

theorem mem_dedupSorted {l : List Similarity} {v : Similarity} :
    v ∈ dedupSorted l ↔ v ∈ l := by
  unfold dedupSorted
  rw [(List.perm_insertionSort simAscRel l.dedup).mem_iff, List.mem_dedup]

theorem new_eq_some [Inhabited α] {elements : List α} {ms : Similarity}
    {pairs : List (Index × Index)} {metric : α → α → Similarity}
    {m : SimilarityMatrix}
    (hm : SimilarityMatrix.new elements ms pairs metric = some m) :
    m = SimilarityMatrix.build elements ms pairs metric := by
  unfold SimilarityMatrix.new at hm
  by_cases h : elements.length = 0
  · rw [if_pos h] at hm
    cases hm
  · rw [if_neg h] at hm
    exact (Option.some_injective _ hm).symm

/-- C9: for every matrix produced by `SimilarityMatrix::new` (from
in-range pairs) or by `spin_off`, the `similarity_values` field is sorted
strictly ascending (hence duplicate-free) and holds exactly the distinct
similarity values present among the matrix's retained edges. -/
theorem similarity_values_exact [Inhabited α] (elements : List α)
    (ms : Similarity) (pairs : List (Index × Index))
    (metric : α → α → Similarity)
    (hp : ∀ p ∈ pairs, p.1 < p.2 ∧ p.2 < elements.length) :
    (∀ m, SimilarityMatrix.new elements ms pairs metric = some m →
      List.Sorted (· < ·) m.similarity_values ∧
      ∀ v, v ∈ m.similarity_values ↔
        ∃ i, i < m.size ∧ ∃ sc ∈ (m.row i).scores, sc.similarity = v) ∧
    (∀ (m0 : SimilarityMatrix) (indices : List Index) (t' : Similarity),
      List.Sorted (· < ·) (m0.spin_off indices t').similarity_values ∧
      ∀ v, v ∈ (m0.spin_off indices t').similarity_values ↔
        ∃ i, i < (m0.spin_off indices t').size ∧
          ∃ sc ∈ ((m0.spin_off indices t').row i).scores,
            sc.similarity = v) := by
  have hp' : ∀ p ∈ pairs, p.1 < elements.length ∧ p.2 < elements.length :=
    fun p h => ⟨lt_trans (hp p h).1 (hp p h).2, (hp p h).2⟩
  constructor
  · intro m hm
    have hbuild := new_eq_some hm
    subst hbuild
    have hvals : (SimilarityMatrix.build elements ms pairs
        metric).similarity_values =
        dedupSorted ((similarityTriplets elements ms pairs metric).map
          (fun t => t.2.2)) := rfl
    refine ⟨hvals ▸ dedupSorted_sorted _, ?_⟩
    intro v
    rw [hvals, mem_dedupSorted, List.mem_map]
    constructor
    · rintro ⟨t, ht, rfl⟩
      rcases mem_similarityTriplets.mp ht with ⟨p, hpm, rfl, -, -⟩
      refine ⟨p.1, ?_, ⟨p.2,
        metric (elements.getD p.1 default) (elements.getD p.2 default)⟩,
        ?_, rfl⟩
      · rw [build_size]
        exact (hp' p hpm).1
      · exact (mem_build_row hp' (hp' p hpm).1).mpr ⟨_, ht, Or.inl ⟨rfl, rfl⟩⟩
    · rintro ⟨i, hi, sc, hsc, rfl⟩
      rw [build_size] at hi
      rcases (mem_build_row hp' hi).mp hsc with ⟨t, ht, hcase⟩
      refine ⟨t, ht, ?_⟩
      rcases hcase with ⟨-, rfl⟩ | ⟨-, rfl⟩ <;> rfl
  · intro m0 indices t'
    have hvals : (m0.spin_off indices t').similarity_values =
        dedupSorted ((m0.spin_off indices t').rows.flatMap
          (fun row => row.scores.map (fun score => score.similarity))) := rfl
    refine ⟨hvals ▸ dedupSorted_sorted _, ?_⟩
    intro v
    rw [hvals, mem_dedupSorted, List.mem_flatMap]
    constructor
    · rintro ⟨row, hrow, hv⟩
      rcases List.mem_map.mp hv with ⟨sc, hsc, rfl⟩
      rcases List.mem_iff_getElem.mp hrow with ⟨i, hlen, rfl⟩
      refine ⟨i, hlen, sc, ?_, rfl⟩
      show sc ∈ ((m0.spin_off indices t').rows.getD i ⟨[]⟩).scores
      rw [List.getD_eq_getElem _ _ hlen]
      exact hsc
    · rintro ⟨i, hi, sc, hsc, rfl⟩
      refine ⟨(m0.spin_off indices t').rows[i], List.getElem_mem hi, ?_⟩
      refine List.mem_map.mpr ⟨sc, ?_, rfl⟩
      have : sc ∈ ((m0.spin_off indices t').rows.getD i ⟨[]⟩).scores := hsc
      rw [List.getD_eq_getElem _ _ hi] at this
      exact this

/-- Witness for `similarity_values_exact` on the two-element input. -/
theorem similarity_values_exact_witness :
    (∀ m, SimilarityMatrix.new ([0, 1] : List ℕ) 0 [(0, 1)]
        (fun _ _ => (1 : ℚ) / 2) = some m →
      List.Sorted (· < ·) m.similarity_values ∧
      ∀ v, v ∈ m.similarity_values ↔
        ∃ i, i < m.size ∧ ∃ sc ∈ (m.row i).scores, sc.similarity = v) ∧
    (∀ (m0 : SimilarityMatrix) (indices : List Index) (t' : Similarity),
      List.Sorted (· < ·) (m0.spin_off indices t').similarity_values ∧
      ∀ v, v ∈ (m0.spin_off indices t').similarity_values ↔
        ∃ i, i < (m0.spin_off indices t').size ∧
          ∃ sc ∈ ((m0.spin_off indices t').row i).scores,
            sc.similarity = v) :=
  similarity_values_exact ([0, 1] : List ℕ) 0 [(0, 1)]
    (fun _ _ => (1 : ℚ) / 2) (by decide)

/-! ## Determinism under reordering of the candidate pairs -/

/-- Two matrices whose rows are pointwise permutations of each other (same
edges, possibly in different order) are ranked identically: the sort keys
(degree, sum of similarities) are permutation-invariant, and the sort is a
deterministic function of the keyed list. -/
theorem rank_eq_of_rows_perm {m1 m2 : SimilarityMatrix}
    (hsize : m1.size = m2.size)
    (hrows : ∀ i, i < m1.size → ((m1.row i).scores).Perm ((m2.row i).scores)) :
    m1.rank_by_weight = m2.rank_by_weight := by
  unfold SimilarityMatrix.rank_by_weight
  have hlen : m1.rows.length = m2.rows.length := hsize
  rw [← hlen]
  have hmap : (List.range m1.rows.length).map (fun index =>
      (index, (m1.rows.getD index ⟨[]⟩).scores.length,
        ((m1.rows.getD index ⟨[]⟩).scores.map (fun score => score.similarity)).sum)) =
      (List.range m1.rows.length).map (fun index =>
        (index, (m2.rows.getD index ⟨[]⟩).scores.length,
          ((m2.rows.getD index ⟨[]⟩).scores.map (fun score => score.similarity)).sum)) := by
    apply List.map_congr_left
    intro i hi
    have hi' : i < m1.size := by simpa [SimilarityMatrix.size] using hi
    have hperm := hrows i hi'
    have h1 : (m1.rows.getD i ⟨[]⟩).scores.length =
        (m2.rows.getD i ⟨[]⟩).scores.length := hperm.length_eq
    have h2 : ((m1.rows.getD i ⟨[]⟩).scores.map
        (fun score => score.similarity)).sum =
        ((m2.rows.getD i ⟨[]⟩).scores.map (fun score => score.similarity)).sum :=
      (hperm.map (fun score => score.similarity)).sum_eq
    rw [h1, h2]
  rw [hmap]

/-- Running the loop on two matrices with pointwise permuted rows, from
states with equal visited sets and cluster lists equal as lists of sets,
succeeds on both sides and preserves that relation: cluster membership
never depends on the within-row edge order. -/
theorem collectLoop_congr {m1 m2 : SimilarityMatrix}
    (hwf1 : Wf m1) (hwf2 : Wf m2) (hsize : m1.size = m2.size)
    (hrows : ∀ i, i < m1.size → ((m1.row i).scores).Perm ((m2.row i).scores))
    (f1 f2 : ℕ) (hf1 : 1 ≤ f1) (hf2 : 1 ≤ f2) :
    ∀ ranked : List Index, (∀ x ∈ ranked, x < m1.size) →
    ∀ cl1 cl2 : Clusterer,
      cl1.visited_so_far = cl2.visited_so_far →
      cl1.clusters_so_far.map List.toFinset =
        cl2.clusters_so_far.map List.toFinset →
      ∃ r1 t1 r2 t2,
        collectLoop (collectClustersRec f1) m1 ranked cl1 = some (r1, t1) ∧
        collectLoop (collectClustersRec f2) m2 ranked cl2 = some (r2, t2) ∧
        r1.visited_so_far = r2.visited_so_far ∧
        r1.clusters_so_far.map List.toFinset =
          r2.clusters_so_far.map List.toFinset := by
  intro ranked
  induction ranked with
  | nil =>
    intro _ cl1 cl2 hvis hclus
    exact ⟨cl1, [], cl2, [], by rw [collectLoop], by rw [collectLoop],
      hvis, hclus⟩
  | cons current rest ih =>
    intro hbound cl1 cl2 hvis hclus
    have hcur : current < m1.size := hbound current (List.mem_cons_self current rest)
    have hrest : ∀ x ∈ rest, x < m1.size :=
      fun x hx => hbound x (List.mem_cons_of_mem _ hx)
    by_cases hcan : cl1.can_add current
    case neg =>
      have hcan2 : ¬ cl2.can_add current := by
        unfold Clusterer.can_add at hcan ⊢
        rw [← hvis]
        exact hcan
      rw [collectLoop, if_neg hcan]
      rw [collectLoop, if_neg hcan2]
      exact ih hrest cl1 cl2 hvis hclus
    case pos =>
      have hcan2 : cl2.can_add current := by
        unfold Clusterer.can_add at hcan ⊢
        rw [← hvis]
        exact hcan
      rw [collectLoop_cons_new _ m1 cl1 current rest hcan]
      rw [collectLoop_cons_new _ m2 cl2 current rest hcan2]
      dsimp only
      set s1 := (m1.row current).ranked_siblings
        (insert current cl1.visited_so_far) with hs1
      set s2 := (m2.row current).ranked_siblings
        (insert current cl2.visited_so_far) with hs2
      have hsib : s1.Perm s2 := by
        rw [hs1, hs2, ← hvis]
        unfold Row.ranked_siblings
        refine List.Perm.map _ ?_
        refine (List.perm_insertionSort scoreDescRel _).trans
          (List.Perm.trans ?_ (List.perm_insertionSort scoreDescRel _).symm)
        exact (hrows current hcur).filter _
      have hc : (current :: s1).Perm (current :: s2) := hsib.cons current
      have hcfin : (current :: s1).toFinset = (current :: s2).toFinset := by
        ext x
        simp only [List.mem_toFinset]
        exact hc.mem_iff
      have hsfin : s1.toFinset = s2.toFinset := by
        ext x
        simp only [List.mem_toFinset]
        exact hsib.mem_iff
      have hlen : (current :: s1).length = (current :: s2).length :=
        hc.length_eq
      have hvisnew : insert current cl1.visited_so_far ∪ s1.toFinset =
          insert current cl2.visited_so_far ∪ s2.toFinset := by
        rw [hvis, hsfin]
      by_cases hcond : ((⟨cl1.clusters_so_far,
          insert current cl1.visited_so_far ∪ s1.toFinset,
          current :: s1⟩ : Clusterer).current_cluster_len < 3 ∨
          (⟨cl1.clusters_so_far,
            insert current cl1.visited_so_far ∪ s1.toFinset,
            current :: s1⟩ : Clusterer).current_cluster_len = m1.size)
      case pos =>
        have hcond2 : ((⟨cl2.clusters_so_far,
            insert current cl2.visited_so_far ∪ s2.toFinset,
            current :: s2⟩ : Clusterer).current_cluster_len < 3 ∨
            (⟨cl2.clusters_so_far,
              insert current cl2.visited_so_far ∪ s2.toFinset,
              current :: s2⟩ : Clusterer).current_cluster_len = m2.size) := by
          show (current :: s2).length < 3 ∨ (current :: s2).length = m2.size
          rw [← hlen, ← hsize]
          exact hcond
        rw [if_pos hcond, if_pos hcond2]
        refine ih hrest _ _ ?_ ?_
        · exact hvisnew
        · show (cl1.clusters_so_far ++ [current :: s1]).map List.toFinset =
            (cl2.clusters_so_far ++ [current :: s2]).map List.toFinset
          rw [List.map_append, List.map_append, hclus]
          congr 1
          simp [hcfin]
      case neg =>
        have hcond2 : ¬ ((⟨cl2.clusters_so_far,
            insert current cl2.visited_so_far ∪ s2.toFinset,
            current :: s2⟩ : Clusterer).current_cluster_len < 3 ∨
            (⟨cl2.clusters_so_far,
              insert current cl2.visited_so_far ∪ s2.toFinset,
              current :: s2⟩ : Clusterer).current_cluster_len = m2.size) := by
          intro h
          apply hcond
          show (current :: s1).length < 3 ∨ (current :: s1).length = m1.size
          rw [hlen, hsize]
          exact h
        rw [if_neg hcond, if_neg hcond2]
        obtain ⟨g1, rfl⟩ : ∃ g, f1 = g + 1 := ⟨f1 - 1, by omega⟩
        obtain ⟨g2, rfl⟩ : ∃ g, f2 = g + 1 := ⟨f2 - 1, by omega⟩
        have hcur2 : current < m2.size := hsize ▸ hcur
        obtain ⟨icl1, d1, hirun1, hicl1, hdperm1⟩ :=
          refine_noop (collectClustersRec g1) hwf1 hcur
            cl1.visited_so_far (current :: s1) (by rw [hs1])
        obtain ⟨icl2, d2, hirun2, hicl2, hdperm2⟩ :=
          refine_noop (collectClustersRec g2) hwf2 hcur2
            cl2.visited_so_far (current :: s2) (by rw [hs2])
        have hinner1 : collectClustersRec (g1 + 1)
            (m1.spin_off ((⟨cl1.clusters_so_far,
              insert current cl1.visited_so_far ∪ s1.toFinset,
              current :: s1⟩ : Clusterer).current_cluster) 0) =
            some (icl1, []) := by
          rw [collectClustersRec]
          exact hirun1
        have hinner2 : collectClustersRec (g2 + 1)
            (m2.spin_off ((⟨cl2.clusters_so_far,
              insert current cl2.visited_so_far ∪ s2.toFinset,
              current :: s2⟩ : Clusterer).current_cluster) 0) =
            some (icl2, []) := by
          rw [collectClustersRec]
          exact hirun2
        rw [hinner1, hinner2]
        dsimp only
        rw [hicl1, hicl2]
        have hmfin : (d1.map (fun k => (current :: s1).getD k 0)).toFinset =
            (d2.map (fun k => (current :: s2).getD k 0)).toFinset := by
          ext x
          simp only [List.mem_toFinset]
          rw [hdperm1.mem_iff, hdperm2.mem_iff]
          exact hc.mem_iff
        obtain ⟨r1, t1, r2, t2, hrun1, hrun2, hrvis, hrclus⟩ :=
          ih hrest
            ((⟨cl1.clusters_so_far,
              insert current cl1.visited_so_far ∪ s1.toFinset,
              current :: s1⟩ : Clusterer).commit_inner_clusters [d1])
            ((⟨cl2.clusters_so_far,
              insert current cl2.visited_so_far ∪ s2.toFinset,
              current :: s2⟩ : Clusterer).commit_inner_clusters [d2])
            hvisnew
            (by
              show (cl1.clusters_so_far ++ [d1.map (fun k =>
                  (current :: s1).getD k 0)]).map List.toFinset =
                (cl2.clusters_so_far ++ [d2.map (fun k =>
                  (current :: s2).getD k 0)]).map List.toFinset
              rw [List.map_append, List.map_append, hclus]
              congr 1
              simp only [List.map_cons, List.map_nil, hmfin])
        rw [hrun1, hrun2]
        exact ⟨r1, _, r2, _, rfl, rfl, hrvis, hrclus⟩

/-- C4: for fixed elements, threshold, metric and a finite *set* of
candidate pairs (given as a duplicate-free list of in-range pairs with
`i < j`), two runs that enumerate the pairs in different orders produce
the same clustering partition when clusters are compared as sets: the
pipeline succeeds on both and the resulting cluster lists agree as lists
of index sets. -/
theorem cluster_deterministic [Inhabited α] (elements : List α)
    (ms : Similarity) (metric : α → α → Similarity)
    (p1 p2 : List (Index × Index)) (hperm : p1.Perm p2)
    (hp : ∀ p ∈ p1, p.1 < p.2 ∧ p.2 < elements.length)
    (hnd : p1.Nodup) (hne : elements ≠ []) :
    ∃ r1 r2 : List Cluster,
      runClusters elements ms p1 metric = some r1 ∧
      runClusters elements ms p2 metric = some r2 ∧
      r1.map List.toFinset = r2.map List.toFinset := by
  have hp2 : ∀ p ∈ p2, p.1 < p.2 ∧ p.2 < elements.length :=
    fun p h => hp p (hperm.mem_iff.mpr h)
  have hnd2 : p2.Nodup := hperm.nodup_iff.mp hnd
  have hp1' : ∀ p ∈ p1, p.1 < elements.length ∧ p.2 < elements.length :=
    fun p h => ⟨lt_trans (hp p h).1 (hp p h).2, (hp p h).2⟩
  have hp2' : ∀ p ∈ p2, p.1 < elements.length ∧ p.2 < elements.length :=
    fun p h => ⟨lt_trans (hp2 p h).1 (hp2 p h).2, (hp2 p h).2⟩
  have hwf1 := Wf_build elements ms p1 metric hp hnd
  have hwf2 := Wf_build elements ms p2 metric hp2 hnd2
  have hsz1 : (SimilarityMatrix.build elements ms p1 metric).size =
      elements.length := build_size elements ms p1 metric
  have hsz2 : (SimilarityMatrix.build elements ms p2 metric).size =
      elements.length := build_size elements ms p2 metric
  have hsize : (SimilarityMatrix.build elements ms p1 metric).size =
      (SimilarityMatrix.build elements ms p2 metric).size := by
    rw [hsz1, hsz2]
  have hNpos : 1 ≤ elements.length := by
    cases elements with
    | nil => exact absurd rfl hne
    | cons a l => simp
  have htrip : (similarityTriplets elements ms p1 metric).Perm
      (similarityTriplets elements ms p2 metric) :=
    (hperm.map _).filter _
  have hrows : ∀ i, i < (SimilarityMatrix.build elements ms p1 metric).size →
      (((SimilarityMatrix.build elements ms p1 metric).row i).scores).Perm
        (((SimilarityMatrix.build elements ms p2 metric).row i).scores) := by
    intro i hi
    rw [hsz1] at hi
    rw [build_row elements ms p1 metric hp1' hi,
      build_row elements ms p2 metric hp2' hi]
    show (List.insertionSort scoreDescRel _).Perm
      (List.insertionSort scoreDescRel _)
    refine (List.perm_insertionSort _ _).trans
      (List.Perm.trans ?_ (List.perm_insertionSort _ _).symm)
    exact htrip.flatMap_right (contrib i)
  have hrank : (SimilarityMatrix.build elements ms p1 metric).rank_by_weight =
      (SimilarityMatrix.build elements ms p2 metric).rank_by_weight :=
    rank_eq_of_rows_perm hsize hrows
  have hbound : ∀ x ∈ (SimilarityMatrix.build elements ms
      p1 metric).rank_by_weight,
      x < (SimilarityMatrix.build elements ms p1 metric).size :=
    fun x hx => mem_rank_by_weight.mp hx
  obtain ⟨r1, t1, r2, t2, hrun1, hrun2, -, hrclus⟩ :=
    collectLoop_congr hwf1 hwf2 hsize hrows
      (SimilarityMatrix.build elements ms p1 metric).size
      (SimilarityMatrix.build elements ms p2 metric).size
      (by rw [hsz1]; exact hNpos) (by rw [hsz2]; exact hNpos)
      (SimilarityMatrix.build elements ms p1 metric).rank_by_weight hbound
      Clusterer.new Clusterer.new rfl rfl
  have hcluster1 : Clusterer.cluster (SimilarityMatrix.build elements ms
      p1 metric) = some ⟨r1.clusters_so_far,
        SimilarityMatrix.build elements ms p1 metric⟩ := by
    unfold Clusterer.cluster Clusterer.collect_clusters
    rw [show collectClustersRec
        ((SimilarityMatrix.build elements ms p1 metric).size + 1)
        (SimilarityMatrix.build elements ms p1 metric) = some (r1, t1) from by
      rw [collectClustersRec]
      exact hrun1]
    rfl
  have hcluster2 : Clusterer.cluster (SimilarityMatrix.build elements ms
      p2 metric) = some ⟨r2.clusters_so_far,
        SimilarityMatrix.build elements ms p2 metric⟩ := by
    unfold Clusterer.cluster Clusterer.collect_clusters
    rw [show collectClustersRec
        ((SimilarityMatrix.build elements ms p2 metric).size + 1)
        (SimilarityMatrix.build elements ms p2 metric) = some (r2, t2) from by
      rw [collectClustersRec, ← hrank]
      exact hrun2]
    rfl
  have hnew1 : SimilarityMatrix.new elements ms p1 metric =
      some (SimilarityMatrix.build elements ms p1 metric) :=
    (new_fails_iff_empty elements ms p1 metric).2 hne
  have hnew2 : SimilarityMatrix.new elements ms p2 metric =
      some (SimilarityMatrix.build elements ms p2 metric) :=
    (new_fails_iff_empty elements ms p2 metric).2 hne
  refine ⟨r1.clusters_so_far, r2.clusters_so_far, ?_, ?_, hrclus⟩
  · unfold runClusters
    rw [hnew1]
    show (Clusterer.cluster (SimilarityMatrix.build elements ms
      p1 metric)).map (fun r => r.clusters) = _
    rw [hcluster1]
    rfl
  · unfold runClusters
    rw [hnew2]
    show (Clusterer.cluster (SimilarityMatrix.build elements ms
      p2 metric)).map (fun r => r.clusters) = _
    rw [hcluster2]
    rfl

/-- Witness for `cluster_deterministic`: the two enumeration orders of
the pair set `{(0,1), (1,2)}` over three elements. -/
theorem cluster_deterministic_witness :
    ∃ r1 r2 : List Cluster,
      runClusters ([0, 1, 2] : List ℕ) 0 [(0, 1), (1, 2)]
        (fun _ _ => (1 : ℚ) / 2) = some r1 ∧
      runClusters ([0, 1, 2] : List ℕ) 0 [(1, 2), (0, 1)]
        (fun _ _ => (1 : ℚ) / 2) = some r2 ∧
      r1.map List.toFinset = r2.map List.toFinset :=
  cluster_deterministic ([0, 1, 2] : List ℕ) 0 (fun _ _ => (1 : ℚ) / 2)
    [(0, 1), (1, 2)] [(1, 2), (0, 1)] (by decide) (by decide) (by decide)
    (by decide)

end Grappolo
